import Mathlib

/-!
# UsbFfs asynchronous I/O wrapper (`src/UsbFfs/aio-wrapper.c`)

A shallow embedding of the C wrapper around Linux AIO (libaio) that drives
FunctionFS endpoints, followed by theorems about it.

Modelling conventions.

* The process heap is a list of blocks, one for every allocation ever made;
  what `malloc` returns is the index of the new block, which names the
  allocation, and `free` marks the block and records the call.  The machine
  address of a block is not part of the state: C `malloc` may give a block the
  address of one that was freed before, so two pointers are different machine
  addresses only if the blocks they point into are both live
  (`validPlacement`); a pointer into a freed block may be the address of
  anything allocated later.
* Calls that may fail (`malloc`, `io_setup`, `eventfd`, `read`, `io_submit`,
  `io_getevents`) take their outcome as an argument.
* A pointer `&bufs[i].cb` is the pair (block of `bufs`, `i`); `container_of`
  is the identity on that pair.
* `submit_cbs` holds the entries `submit_cbs[0 .. submit_cbs_count-1]`;
  `submit_cbs_count` is its length.  The C array has room for `max_events`
  entries and the code never compares the count with it, so neither does the
  model: a list longer than `max_events` stands for a write past the array.
* `int` arithmetic is exact on `Int` (signed overflow is undefined in C); the
  defined conversions `int → size_t` and `long → int32_t` are explicit.
* Dereferencing a pointer that does not point into a live `ep_buf` array, or
  indexing outside an array, makes the function return `none`.  Endpoint and
  event indices are natural numbers.
* The kernel side of libaio is part of the environment: `io_submit` with a
  non-negative result has taken that many operations from the front of the
  list, and the operations of the records returned by `io_getevents` have left
  the kernel.
-/

namespace UsbFfs

/-! ## Constants and conversions -/

abbrev Addr := Nat

def ENOMEM : Int := 12

/-- The opcode `IO_CMD_PREAD` of libaio. -/
def IO_CMD_PREAD : Int := 0

/-- The opcode `IO_CMD_PWRITE` of libaio. -/
def IO_CMD_PWRITE : Int := 1

def IOCB_FLAG_RESFD : Nat := 1

/-- Conversion of a signed integer to `size_t` (64 bit). -/
def sizeT (x : Int) : Nat := (x % 2 ^ 64).toNat

/-- Conversion of a `long` to `int32_t`. -/
def int32 (x : Int) : Int := (x + 2 ^ 31) % 2 ^ 32 - 2 ^ 31

/-! ## Data model -/

/-- The pointer `&bufs[idx].cb` into the `ep_buf` array stored in `block`. -/
structure IocbPtr where
  block : Addr
  idx : Nat
deriving DecidableEq, Repr

/-- The pointer `base + off` into the data region stored in `block`. -/
structure DataPtr where
  block : Addr
  off : Int
deriving DecidableEq, Repr

/-- The fields of libaio's `struct iocb` (with `u.c` flattened). -/
structure Iocb where
  aio_lio_opcode : Int
  aio_reqprio : Int
  aio_fildes : Int
  buf : Option DataPtr
  nbytes : Nat
  offset : Int
  flags : Nat
  resfd : Int
deriving DecidableEq, Repr

/-- The C `struct ep_buf`. -/
structure EpBuf where
  cb : Iocb
  size : Int
  offset : Int
  buf : Option Addr
deriving DecidableEq, Repr

/-- The C `struct ep`. -/
structure Ep where
  file : Int
  buf_count : Int
  bufs : Option Addr
deriving DecidableEq, Repr

/-- The fields of libaio's `struct io_event`. -/
structure IoEvent where
  data : Nat
  obj : IocbPtr
  res : Int
  res2 : Int
deriving DecidableEq, Repr

/-- The C `struct ctx`.  The three arrays are kept with the address of their
block and their contents. -/
structure Ctx where
  self : Addr
  ioctx : Nat
  eventfd : Int
  max_events : Int
  events_ptr : Addr
  events : List IoEvent
  submit_cbs_ptr : Addr
  submit_cbs : List IocbPtr
  ep_count : Int
  eps_ptr : Addr
  eps : List Ep
deriving DecidableEq, Repr

/-- The field `submit_cbs_count`. -/
def Ctx.submit_cbs_count (ctx : Ctx) : Int := ctx.submit_cbs.length

/-- The C `struct event_data`. -/
structure EventData where
  fd : Int
  result : Int
  offset : Int
  buf : Option Addr
deriving DecidableEq, Repr

/-! ## The environment: heap and kernel -/

inductive Block where
  | raw (size : Nat)
  | bufs (arr : List EpBuf)
  | freed
deriving DecidableEq, Repr

/-- Calls into the kernel made by the wrapper. -/
inductive Call where
  | io_setup (nr : Int)
  | eventfd
  | read (fd : Int)
  | io_getevents (ioctx : Nat) (min_nr nr : Int)
  | io_submit (ioctx : Nat) (nr : Int) (cbs : List IocbPtr)
  | io_destroy (ioctx : Nat)
deriving DecidableEq, Repr

/-- The state outside the context: heap blocks, the log of `free` calls, the
descriptors opened and AIO handles created and not yet released, the
operations the kernel holds, and the log of kernel calls. -/
structure World where
  heap : List Block
  frees : List Addr
  fds : List Int
  ioctxs : List Nat
  inflight : List IocbPtr
  calls : List Call
deriving DecidableEq, Repr

def World.empty : World :=
  { heap := [], frees := [], fds := [], ioctxs := [], inflight := [], calls := [] }

/-- The addresses of the blocks that are allocated and not freed. -/
def World.live (w : World) : List Addr :=
  (List.range w.heap.length).filter (fun a => decide (w.heap[a]? ≠ some Block.freed))

/-- The call `malloc`: on success a new block is added and its index returned.
The index names the allocation, not its machine address, which may be that of
a block freed before. -/
def malloc (w : World) (ok : Bool) (b : Block) : World × Option Addr :=
  if ok then ({ w with heap := w.heap ++ [b] }, some w.heap.length) else (w, none)

def free (w : World) (p : Option Addr) : World :=
  match p with
  | none => w
  | some a => { w with heap := w.heap.set a Block.freed, frees := w.frees ++ [a] }

/-- Read `*container_of(p, struct ep_buf, cb)`. -/
def World.readBuf (w : World) (p : IocbPtr) : Option EpBuf :=
  match w.heap[p.block]? with
  | some (Block.bufs arr) => arr[p.idx]?
  | _ => none

/-- Update `*container_of(p, struct ep_buf, cb)` in place. -/
def World.modBuf (w : World) (p : IocbPtr) (f : EpBuf → EpBuf) : Option World :=
  match w.heap[p.block]? with
  | some (Block.bufs arr) =>
    match arr[p.idx]? with
    | some b => some { w with heap := w.heap.set p.block (Block.bufs (arr.set p.idx (f b))) }
    | none => none
  | _ => none

def logCall (w : World) (c : Call) : World := { w with calls := w.calls ++ [c] }

/-- The libaio call `io_setup`: on success (`ret ≥ 0`) the handle is live. -/
def io_setup (w : World) (nr : Int) (ret : Int) (handle : Nat) : World :=
  let w1 := logCall w (Call.io_setup nr)
  if ret < 0 then w1 else { w1 with ioctxs := w1.ioctxs ++ [handle] }

/-- The call `eventfd(0, 0)`: on success (`ret ≥ 0`) the descriptor is open. -/
def eventfd (w : World) (ret : Int) : World :=
  let w1 := logCall w Call.eventfd
  if ret < 0 then w1 else { w1 with fds := w1.fds ++ [ret] }

/-- The libaio call `io_submit`: a negative `ret` queues nothing, otherwise the
kernel has taken the first `ret` operations. -/
def io_submit (w : World) (ioctx : Nat) (nr : Int) (cbs : List IocbPtr) (ret : Int) : World :=
  let w1 := logCall w (Call.io_submit ioctx nr cbs)
  if ret < 0 then w1 else { w1 with inflight := w1.inflight ++ cbs.take ret.toNat }

/-- The libaio call `io_getevents`: the operations of the records handed over
leave the kernel. -/
def io_getevents (w : World) (ioctx : Nat) (min_nr nr : Int) (evs : List IoEvent) : World :=
  let w1 := logCall w (Call.io_getevents ioctx min_nr nr)
  { w1 with inflight := w1.inflight.diff (evs.map IoEvent.obj) }

def io_destroy (w : World) (ioctx : Nat) : World :=
  let w1 := logCall w (Call.io_destroy ioctx)
  { w1 with ioctxs := w1.ioctxs.erase ioctx }

/-- The libaio inline helpers `io_prep_pread` / `io_prep_pwrite`: clear the
descriptor, then fill in descriptor number, opcode, buffer, count and offset. -/
def io_prep (opcode : Int) (fd : Int) (buf : Option DataPtr) (count : Nat) (offset : Int) : Iocb :=
  { aio_lio_opcode := opcode, aio_reqprio := 0, aio_fildes := fd, buf := buf,
    nbytes := count, offset := offset, flags := 0, resfd := 0 }

def io_prep_pread (fd : Int) (buf : Option DataPtr) (count : Nat) (offset : Int) : Iocb :=
  io_prep IO_CMD_PREAD fd buf count offset

def io_prep_pwrite (fd : Int) (buf : Option DataPtr) (count : Nat) (offset : Int) : Iocb :=
  io_prep IO_CMD_PWRITE fd buf count offset

/-- The two statements `cb.u.c.flags |= IOCB_FLAG_RESFD; cb.u.c.resfd = eventfd`. -/
def setResfd (cb : Iocb) (efd : Int) : Iocb :=
  { cb with flags := cb.flags ||| IOCB_FLAG_RESFD, resfd := efd }

/-! ## The wrapper functions -/

/-- Outcomes of the fallible calls of `ffs_aio_init`, in program order. -/
structure InitEnv where
  ctx_ok : Bool
  io_setup_ret : Int
  io_setup_handle : Nat
  eventfd_ret : Int
  errno : Int
  events_ok : Bool
  submit_cbs_ok : Bool
  eps_ok : Bool
deriving DecidableEq, Repr

def zeroEp : Ep := { file := 0, buf_count := 0, bufs := none }

def zeroIocb : Iocb :=
  { aio_lio_opcode := 0, aio_reqprio := 0, aio_fildes := 0, buf := none,
    nbytes := 0, offset := 0, flags := 0, resfd := 0 }

def zeroEpBuf : EpBuf := { cb := zeroIocb, size := 0, offset := 0, buf := none }

/-- The function `ffs_aio_init`; the error pointer `(struct ctx*)-e` is `Except.error (-e)`. -/
def ffs_aio_init (w : World) (env : InitEnv) (ep_count max_events : Int) :
    World × Except Int Ctx :=
  match malloc w env.ctx_ok (Block.raw 56) with
  | (w1, none) => (w1, Except.error (-ENOMEM))
  | (w1, some c) =>
    let w2 := io_setup w1 max_events env.io_setup_ret env.io_setup_handle
    if env.io_setup_ret < 0 then (free w2 (some c), Except.error env.io_setup_ret)
    else
      let w3 := eventfd w2 env.eventfd_ret
      if env.eventfd_ret < 0 then (free w3 (some c), Except.error (-env.errno))
      else
        match malloc w3 env.events_ok (Block.raw (sizeT max_events * 32 % 2 ^ 64)) with
        | (w4, none) => (free w4 (some c), Except.error (-ENOMEM))
        | (w4, some ev) =>
          match malloc w4 env.submit_cbs_ok (Block.raw (sizeT max_events * 8 % 2 ^ 64)) with
          | (w5, none) => (free (free w5 (some ev)) (some c), Except.error (-ENOMEM))
          | (w5, some sc) =>
            match malloc w5 env.eps_ok (Block.raw (sizeT ep_count * 16 % 2 ^ 64)) with
            | (w6, none) =>
              (free (free (free w6 (some ev)) (some sc)) (some c), Except.error (-ENOMEM))
            | (w6, some e) =>
              (w6, Except.ok
                { self := c, ioctx := env.io_setup_handle, eventfd := env.eventfd_ret,
                  max_events := max_events, events_ptr := ev, events := [],
                  submit_cbs_ptr := sc, submit_cbs := [],
                  ep_count := ep_count, eps_ptr := e,
                  eps := List.replicate ep_count.toNat zeroEp })

/-- The inner loop of the failure branch of `ffs_aio_init_ep`:
`for (j = i - 1; j >= 0; j--) { free(bufs[j].buf); bufs[j].buf = NULL; }`. -/
def init_ep_rollback (a : Addr) : Nat → World → Option World
  | 0, w => some w
  | j + 1, w => do
    let b ← w.readBuf ⟨a, j⟩
    let w1 ← (free w b.buf).modBuf ⟨a, j⟩ (fun b => { b with buf := none })
    init_ep_rollback a j w1

/-- The loop `for (i = 0; i < buf_count; i++)` of `ffs_aio_init_ep`, with `rem`
iterations left to run from index `i`. -/
def init_ep_loop (ep_index : Nat) (a : Addr) (fd buf_size buf_offset is_write : Int)
    (data_ok : Nat → Bool) : Nat → Nat → World → Ctx → Option (World × Ctx × Int)
  | 0, _, w, ctx => some (w, ctx, 0)
  | rem + 1, i, w, ctx => do
    let w1 ← w.modBuf ⟨a, i⟩ (fun b => { b with size := buf_size - buf_offset, offset := buf_offset })
    let (w2, d) := malloc w1 (data_ok i) (Block.raw (sizeT buf_size))
    let w3 ← w2.modBuf ⟨a, i⟩ (fun b => { b with buf := d })
    match d with
    | none =>
      let w4 ← init_ep_rollback a i w3
      let ep ← ctx.eps[ep_index]?
      some (free w4 (some a), { ctx with eps := ctx.eps.set ep_index { ep with bufs := none } }, -ENOMEM)
    | some dp =>
      let cb :=
        if is_write ≠ 0 then io_prep_pwrite fd (some ⟨dp, buf_offset⟩) (sizeT (buf_size - buf_offset)) 0
        else io_prep_pread fd (some ⟨dp, buf_offset⟩) (sizeT (buf_size - buf_offset)) 0
      let w4 ← w3.modBuf ⟨a, i⟩ (fun b => { b with cb := setResfd cb ctx.eventfd })
      init_ep_loop ep_index a fd buf_size buf_offset is_write data_ok rem (i + 1) w4
        { ctx with submit_cbs := ctx.submit_cbs ++ [⟨a, i⟩] }

/-- The function `ffs_aio_init_ep`.  `bufs_ok` is the outcome of the allocation
of the `ep_buf` array, `data_ok i` that of the data region of buffer `i`. -/
def ffs_aio_init_ep (w : World) (ctx : Ctx) (ep_index : Nat)
    (fd buf_count buf_size buf_offset is_write : Int)
    (bufs_ok : Bool) (data_ok : Nat → Bool) : Option (World × Ctx × Int) := do
  let ep ← ctx.eps[ep_index]?
  let ctx1 := { ctx with eps := ctx.eps.set ep_index { ep with file := fd, buf_count := buf_count } }
  match malloc w bufs_ok (Block.bufs (List.replicate buf_count.toNat zeroEpBuf)) with
  | (w1, none) => some (w1, ctx1, -ENOMEM)
  | (w1, some a) =>
    let ctx2 := { ctx1 with eps := ctx1.eps.set ep_index { file := fd, buf_count := buf_count, bufs := some a } }
    init_ep_loop ep_index a fd buf_size buf_offset is_write data_ok buf_count.toNat 0 w1 ctx2

/-- The function `ffs_aio_read_events`.  `read_ret` is what `read` on the
eventfd returned (`errno` its error), `ret` what `io_getevents` returned and
`evs` the records it stored at the start of `events`. -/
def ffs_aio_read_events (w : World) (ctx : Ctx) (read_ret errno : Int) (ret : Int)
    (evs : List IoEvent) : World × Ctx × Int :=
  let w1 := logCall w (Call.read ctx.eventfd)
  if read_ret < 0 then (w1, ctx, -errno)
  else
    let stored := evs.take ret.toNat
    (io_getevents w1 ctx.ioctx 1 ctx.max_events stored,
     { ctx with events := stored ++ ctx.events.drop stored.length }, ret)

/-- The function `ffs_aio_event_data`; the record written to `*data` is returned. -/
def ffs_aio_event_data (w : World) (ctx : Ctx) (event_index : Nat) : Option EventData := do
  let event ← ctx.events[event_index]?
  let buf ← w.readBuf event.obj
  some { fd := buf.cb.aio_fildes, result := int32 event.res, offset := buf.offset, buf := buf.buf }

/-- The common body of `ffs_aio_prep_read` and `ffs_aio_prep_write`. -/
def ffs_aio_prep (prep : Int → Option DataPtr → Nat → Int → Iocb)
    (w : World) (ctx : Ctx) (event_index : Nat) : Option (World × Ctx) := do
  let event ← ctx.events[event_index]?
  let buf ← w.readBuf event.obj
  let cb := prep buf.cb.aio_fildes (buf.buf.map (fun d => ⟨d, buf.offset⟩)) (sizeT buf.size) 0
  let w1 ← w.modBuf event.obj (fun b => { b with cb := setResfd cb ctx.eventfd })
  some (w1, { ctx with submit_cbs := ctx.submit_cbs ++ [event.obj] })

def ffs_aio_prep_read (w : World) (ctx : Ctx) (event_index : Nat) : Option (World × Ctx) :=
  ffs_aio_prep io_prep_pread w ctx event_index

def ffs_aio_prep_write (w : World) (ctx : Ctx) (event_index : Nat) : Option (World × Ctx) :=
  ffs_aio_prep io_prep_pwrite w ctx event_index

/-- The function `ffs_aio_submit`; `ret` is what `io_submit` returns if called. -/
def ffs_aio_submit (w : World) (ctx : Ctx) (ret : Int) : World × Ctx × Int :=
  if ctx.submit_cbs_count > 0 then
    let w1 := io_submit w ctx.ioctx ctx.submit_cbs_count ctx.submit_cbs ret
    if ret < 0 then (w1, ctx, ret)
    else (w1, { ctx with submit_cbs := [] }, 0)
  else (w, ctx, 0)

/-- The loop `for (j = 0; j < count; j++) free(bufs[j].buf);` of `ffs_aio_free`,
with `rem` iterations left to run from index `j`. -/
def free_bufs_loop (a : Addr) : Nat → Nat → World → Option World
  | 0, _, w => some w
  | rem + 1, j, w => do
    let b ← w.readBuf ⟨a, j⟩
    free_bufs_loop a rem (j + 1) (free w b.buf)

/-- The loop `for (i = 0; i < ctx->ep_count; i++)` of `ffs_aio_free`. -/
def free_eps_loop (ctx : Ctx) : Nat → Nat → World → Option World
  | 0, _, w => some w
  | rem + 1, i, w => do
    let ep ← ctx.eps[i]?
    match ep.bufs with
    | some a =>
      let w1 ← free_bufs_loop a ep.buf_count.toNat 0 w
      free_eps_loop ctx rem (i + 1) (free w1 (some a))
    | none => free_eps_loop ctx rem (i + 1) w

/-- The function `ffs_aio_free`. -/
def ffs_aio_free (w : World) (ctx : Ctx) : Option World := do
  let w1 := io_destroy w ctx.ioctx
  let w2 := free w1 (some ctx.events_ptr)
  let w3 ← free_eps_loop ctx ctx.ep_count.toNat 0 w2
  let w4 := free w3 (some ctx.submit_cbs_ptr)
  let w5 := free w4 (some ctx.eps_ptr)
  some (free w5 (some ctx.self))

/-! ## Closed form of an initialised buffer -/

/-- The value `ffs_aio_init_ep` leaves in `bufs[i]` once its data region `d`
has been allocated. -/
def initBuf (fd buf_size buf_offset is_write efd : Int) (d : Addr) : EpBuf :=
  { cb := setResfd
      (if is_write ≠ 0 then
        io_prep_pwrite fd (some ⟨d, buf_offset⟩) (sizeT (buf_size - buf_offset)) 0
      else io_prep_pread fd (some ⟨d, buf_offset⟩) (sizeT (buf_size - buf_offset)) 0) efd,
    size := buf_size - buf_offset, offset := buf_offset, buf := some d }

/-- The fields of a buffer that are set when its endpoint is initialised and
that identify its endpoint and data region. -/
def sameBuffer (b b' : EpBuf) : Prop :=
  b'.cb.aio_fildes = b.cb.aio_fildes ∧ b'.size = b.size ∧ b'.offset = b.offset ∧ b'.buf = b.buf

/-! ## The engine as a transition system -/

/-- The calls a caller makes on an initialised context, each with the outcomes
of the allocations and kernel calls it performs. -/
inductive Op where
  | init_ep (ep_index : Nat) (fd buf_count buf_size buf_offset is_write : Int)
      (bufs_ok : Bool) (data_ok : Nat → Bool)
  | submit (ret : Int)
  | poll (read_ret errno ret : Int) (evs : List IoEvent)
  | rearm_read (event_index : Nat)
  | rearm_write (event_index : Nat)

/-- The context and its environment, with what the caller keeps track of:
`last` is the completion count returned by the last successful poll, `avail`
the indices below it that have not been re-armed since, and `total` the sum of
the `buf_count` of the `ffs_aio_init_ep` calls made. -/
structure State where
  w : World
  ctx : Ctx
  last : Nat
  avail : List Nat
  total : Nat
deriving DecidableEq, Repr

def step (op : Op) (s : State) : Option State :=
  match op with
  | Op.init_ep ep_index fd buf_count buf_size buf_offset is_write bufs_ok data_ok =>
    (ffs_aio_init_ep s.w s.ctx ep_index fd buf_count buf_size buf_offset is_write
        bufs_ok data_ok).map
      (fun r => { s with w := r.1, ctx := r.2.1, total := s.total + buf_count.toNat })
  | Op.submit ret =>
    let r := ffs_aio_submit s.w s.ctx ret
    some { s with w := r.1, ctx := r.2.1 }
  | Op.poll read_ret errno ret evs =>
    let r := ffs_aio_read_events s.w s.ctx read_ret errno ret evs
    if read_ret < 0 ∨ ret < 0 then some { s with w := r.1, ctx := r.2.1 }
    else some { s with w := r.1, ctx := r.2.1, last := ret.toNat, avail := List.range ret.toNat }
  | Op.rearm_read i =>
    (ffs_aio_prep_read s.w s.ctx i).map
      (fun r => { s with w := r.1, ctx := r.2, avail := s.avail.erase i })
  | Op.rearm_write i =>
    (ffs_aio_prep_write s.w s.ctx i).map
      (fun r => { s with w := r.1, ctx := r.2, avail := s.avail.erase i })

/-- What the kernel guarantees about the outcomes, and the validity of event
indices: `io_submit` takes at most the operations offered; `io_getevents`
stores as many records as it returns, at most `max_events`, each for an
operation the kernel holds; an event index is below the last completion
count. -/
def envOk (op : Op) (s : State) : Prop :=
  match op with
  | Op.init_ep _ _ _ _ _ _ _ _ => True
  | Op.submit ret => ret ≤ s.ctx.submit_cbs_count
  | Op.poll read_ret errno ret evs =>
    (read_ret < 0 → 0 < errno) ∧
    (0 ≤ read_ret → 0 ≤ ret →
      (evs.length : Int) = ret ∧ ret ≤ s.ctx.max_events ∧
      List.Subperm (evs.map IoEvent.obj) s.w.inflight)
  | Op.rearm_read i => i < s.last
  | Op.rearm_write i => i < s.last

/-- Caller discipline: a completion record is re-armed at most once. -/
def rearmOnce (op : Op) (s : State) : Prop :=
  match op with
  | Op.rearm_read i => i ∈ s.avail
  | Op.rearm_write i => i ∈ s.avail
  | _ => True

/-- Caller discipline: the buffers of all endpoints together fit `max_events`. -/
def withinCapacity (op : Op) (s : State) : Prop :=
  match op with
  | Op.init_ep _ _ buf_count _ _ _ _ _ => s.total + buf_count.toNat ≤ s.ctx.max_events.toNat
  | _ => True

def callerOk (op : Op) (s : State) : Prop := rearmOnce op s ∧ withinCapacity op s

/-- Caller discipline: an `ffs_aio_init_ep` call does not fail after it has
queued a descriptor; the allocation of the array fails, or that of the first
data region, or none. -/
def cleanFailure (op : Op) (_ : State) : Prop :=
  match op with
  | Op.init_ep _ _ buf_count _ _ _ bufs_ok data_ok =>
    bufs_ok = true → data_ok 0 = false ∨ ∀ j, j < buf_count.toNat → data_ok j = true
  | _ => True

def carefulCaller (op : Op) (s : State) : Prop := rearmOnce op s ∧ cleanFailure op s

/-- The descriptor points into an `ep_buf` array that is allocated and not freed. -/
def liveArr (w : World) (p : IocbPtr) : Prop :=
  ∃ arr, w.heap[p.block]? = some (Block.bufs arr)

/-- An assignment of machine addresses to the blocks: the blocks that are live
have different addresses, while a freed block may have the address of a block
allocated after it was freed. -/
def validPlacement (w : World) (f : Addr → Nat) : Prop := (w.live.map f).Nodup

/-- The machine address of a descriptor under a placement: the address of its
array and its index in it (live blocks do not overlap). -/
def machinePtr (f : Addr → Nat) (p : IocbPtr) : Nat × Nat := (f p.block, p.idx)

def noDiscipline (_ : Op) (_ : State) : Prop := True

/-- The states reached from a successful `ffs_aio_init` by calls whose outcomes
satisfy `envOk` and which the caller makes only when `P` allows.  `io_setup`
succeeds only for a positive `max_events`. -/
inductive ReachableWith (P : Op → State → Prop) : State → Prop where
  | init (w0 : World) (env : InitEnv) (ep_count max_events : Int) (w : World) (ctx : Ctx) :
      w0.inflight = [] → 0 < max_events →
      ffs_aio_init w0 env ep_count max_events = (w, Except.ok ctx) →
      ReachableWith P { w := w, ctx := ctx, last := 0, avail := [], total := 0 }
  | step (s s' : State) (op : Op) :
      ReachableWith P s → envOk op s → P op s → step op s = some s' → ReachableWith P s'

/-- Every sequence of calls. -/
def Reachable : State → Prop := ReachableWith noDiscipline

/-- Run a sequence of calls. -/
def run : List Op → State → Option State
  | [], s => some s
  | op :: ops, s => (step op s).bind (run ops)

/-- The descriptor of the completion record at `i`. -/
def objAt (ctx : Ctx) (i : Nat) : IocbPtr :=
  match ctx.events[i]? with
  | some ev => ev.obj
  | none => ⟨0, 0⟩

/-- The descriptors the engine is responsible for: pending, held by the
kernel, or completed and not re-armed. -/
def owned (s : State) : List IocbPtr :=
  s.ctx.submit_cbs ++ s.w.inflight ++ s.avail.map (objAt s.ctx)

/-! ## Concrete scenarios -/

def envOk0 : InitEnv :=
  { ctx_ok := true, io_setup_ret := 0, io_setup_handle := 1, eventfd_ret := 5, errno := 0,
    events_ok := true, submit_cbs_ok := true, eps_ok := true }

def noCtx : Ctx :=
  { self := 0, ioctx := 0, eventfd := 0, max_events := 0, events_ptr := 0, events := [],
    submit_cbs_ptr := 0, submit_cbs := [], ep_count := 0, eps_ptr := 0, eps := [] }

/-- The state after `ffs_aio_init(ep_count, max_events)` succeeded in an empty world. -/
def initState (ep_count max_events : Int) : State :=
  match ffs_aio_init World.empty envOk0 ep_count max_events with
  | (w, Except.ok ctx) => { w := w, ctx := ctx, last := 0, avail := [], total := 0 }
  | (w, Except.error _) => { w := w, ctx := noCtx, last := 0, avail := [], total := 0 }

def allOk : Nat → Bool := fun _ => true

def after (ops : List Op) (s : State) : State := (run ops s).getD s

/-- A completion record for the descriptor `p` with result `res`. -/
def completion (p : IocbPtr) (res : Int) : IoEvent := { data := 0, obj := p, res := res, res2 := 0 }

/-- Context(ep_count=1, max_events=4) with one endpoint of four read buffers of
4096 bytes on descriptor 7. -/
def epState : State := after [Op.init_ep 0 7 4 4096 0 0 true allOk] (initState 1 4)

/-- Context(ep_count=2, max_events=4) after a first endpoint with four buffers. -/
def capState : State := after [Op.init_ep 0 7 4 4096 0 0 true allOk] (initState 2 4)

/-- Allocation outcomes in which the data region of buffer `k` is the first to fail. -/
def failAt (k : Nat) : Nat → Bool := fun i => decide (i < k)

/-- Context(ep_count=1, max_events=4) with one endpoint of three read buffers
on descriptor 7, after a submit and a poll that reports the completion of
buffer 2 with 512 bytes. -/
def tripState : State :=
  after [Op.init_ep 0 7 3 4096 0 0 true allOk, Op.submit 3,
    Op.poll 8 0 1 [{ data := 0, obj := ⟨4, 2⟩, res := 512, res2 := 0 }]] (initState 1 4)

/-- Context(ep_count=2, max_events=4) after a first endpoint with four buffers
and a second endpoint with one buffer. -/
def overState : State :=
  after [Op.init_ep 0 7 4 4096 0 0 true allOk, Op.init_ep 1 8 1 4096 0 0 true allOk]
    (initState 2 4)

/-- Context(ep_count=1, max_events=4) with one buffer that was submitted,
completed, and re-armed twice at event index 0. -/
def twiceState : State :=
  after [Op.init_ep 0 7 1 4096 0 0 true allOk, Op.submit 1,
    Op.poll 8 0 1 [completion ⟨4, 0⟩ 512], Op.rearm_read 0, Op.rearm_read 0] (initState 1 4)

/-- Context(ep_count=1, max_events=4) with four buffers: all submitted, two
completed, each of the two re-armed once. -/
def cycleState : State :=
  after [Op.init_ep 0 7 4 4096 0 0 true allOk, Op.submit 4,
    Op.poll 8 0 2 [completion ⟨4, 1⟩ 512, completion ⟨4, 3⟩ 64],
    Op.rearm_read 0, Op.rearm_write 1] (initState 1 4)

/-- Context(ep_count=1, max_events=2) with two buffers: both submitted and
completed, each re-armed once. -/
def secondRound : State :=
  after [Op.init_ep 0 7 2 4096 0 0 true allOk, Op.submit 2,
    Op.poll 8 0 2 [completion ⟨4, 1⟩ 512, completion ⟨4, 0⟩ 512],
    Op.rearm_read 1, Op.rearm_read 0] (initState 1 2)

/-- Context(ep_count=1, max_events=4) after an endpoint initialisation with two
buffers that failed at the second data region, and its retry, which succeeded. -/
def staleState : State :=
  after [Op.init_ep 0 7 2 4096 0 0 true (failAt 1), Op.init_ep 0 7 2 4096 0 0 true allOk]
    (initState 1 4)

/-- A placement that gives the array of the retry the address of the array
freed by the failed call. -/
def reusePlacement : Addr → Nat := fun a => if a = 6 then 4 else a

/-! ## List and heap lemmas -/

theorem set_map_range {α : Type} (g : Nat → α) (n i : Nat) (v : α) :
    ((List.range n).map g).set i v = (List.range n).map (Function.update g i v) := by
  apply List.ext_getElem?
  intro m
  simp only [List.getElem?_set, List.getElem?_map, List.length_map, List.length_range]
  by_cases hm : m < n
  · rw [List.getElem?_range hm]
    by_cases him : i = m
    · subst him; simp [hm]
    · have : m ≠ i := fun h => him h.symm
      simp [him, Function.update, this]
  · have hn : (List.range n)[m]? = none := List.getElem?_eq_none (by simp; omega)
    rw [hn]
    by_cases him : i = m
    · subst him; simp [hm]
    · simp [him]

theorem get_map_range {α : Type} (g : Nat → α) (n i : Nat) (h : i < n) :
    ((List.range n).map g)[i]? = some (g i) := by
  simp [List.getElem?_range, h]

theorem heap_get_mid {α : Type} (h0 : List α) (x : α) (t : List α) :
    (h0 ++ x :: t)[h0.length]? = some x := by
  rw [List.getElem?_append_right (le_refl _)]
  simp

theorem heap_get_tail {α : Type} (h0 : List α) (x : α) (t : List α) (j : Nat) :
    (h0 ++ x :: t)[h0.length + 1 + j]? = t[j]? := by
  rw [List.getElem?_append_right (by omega)]
  have : h0.length + 1 + j - h0.length = j + 1 := by omega
  rw [this]; simp

theorem heap_set_mid {α : Type} (h0 : List α) (x y : α) (t : List α) :
    (h0 ++ x :: t).set h0.length y = h0 ++ y :: t := by
  simp

theorem heap_set_tail {α : Type} (h0 : List α) (x y : α) (t : List α) (j : Nat) :
    (h0 ++ x :: t).set (h0.length + 1 + j) y = h0 ++ x :: t.set j y := by
  rw [List.set_append]
  have : ¬ (h0.length + 1 + j < h0.length) := by omega
  simp [this]
  have : h0.length + 1 + j - h0.length = j + 1 := by omega
  rw [this]; rfl


theorem heap_snoc {α : Type} (h0 : List α) (x r : α) (i : Nat) :
    (h0 ++ x :: List.replicate i r) ++ [r] = h0 ++ x :: List.replicate (i + 1) r := by
  simp [List.replicate_succ']

theorem heap_len {α : Type} (h0 : List α) (x : α) (t : List α) :
    (h0 ++ x :: t).length = h0.length + 1 + t.length := by
  simp; omega

theorem readBuf_mid (w : World) (h0 tl : List Block) (n : Nat) (g : Nat → EpBuf) (i : Nat)
    (hw : w.heap = h0 ++ Block.bufs ((List.range n).map g) :: tl) (hi : i < n) :
    w.readBuf ⟨h0.length, i⟩ = some (g i) := by
  simp only [World.readBuf, hw, heap_get_mid, get_map_range g n i hi]

theorem modBuf_mid (w : World) (h0 tl : List Block) (n : Nat) (g : Nat → EpBuf) (i : Nat)
    (f : EpBuf → EpBuf)
    (hw : w.heap = h0 ++ Block.bufs ((List.range n).map g) :: tl) (hi : i < n) :
    w.modBuf ⟨h0.length, i⟩ f =
      some { w with heap := h0 ++ Block.bufs ((List.range n).map (Function.update g i (f (g i)))) :: tl } := by
  simp only [World.modBuf, hw, heap_get_mid, get_map_range g n i hi, heap_set_mid, set_map_range]

theorem init_ep_loop_ok (ep_index : Nat) (h0 : List Block) (fd bs bo iw : Int)
    (data_ok : Nat → Bool) (n : Nat) :
    ∀ (rem i : Nat) (g : Nat → EpBuf) (w : World) (ctx : Ctx),
      i + rem = n →
      (∀ j, i ≤ j → j < n → data_ok j = true) →
      w.heap = h0 ++ Block.bufs ((List.range n).map g) :: List.replicate i (Block.raw (sizeT bs)) →
      init_ep_loop ep_index h0.length fd bs bo iw data_ok rem i w ctx =
        some ({ w with heap := h0 ++ Block.bufs ((List.range n).map (fun t =>
                  if i ≤ t then initBuf fd bs bo iw ctx.eventfd (h0.length + 1 + t) else g t))
                  :: List.replicate n (Block.raw (sizeT bs)) },
              { ctx with submit_cbs := ctx.submit_cbs ++
                  (List.range' i rem).map (fun t => (⟨h0.length, t⟩ : IocbPtr)) }, 0) := by
  intro rem
  induction rem with
  | zero =>
    intro i g w ctx hin _ hw
    have hi : i = n := by omega
    subst hi
    have hmap : (List.range i).map (fun t =>
        if i ≤ t then initBuf fd bs bo iw ctx.eventfd (h0.length + 1 + t) else g t)
        = (List.range i).map g := by
      apply List.map_congr_left
      intro t ht
      have : t < i := List.mem_range.mp ht
      simp [Nat.not_le.mpr this]
    obtain ⟨heap, frees, fds, ioctxs, inflight, calls⟩ := w
    simp only at hw
    subst hw
    simp [init_ep_loop, hmap]
  | succ rem ih =>
    intro i g w ctx hin hok hw
    have hi : i < n := by omega
    obtain ⟨heap, frees, fds, ioctxs, inflight, calls⟩ := w
    simp only at hw
    subst hw
    unfold init_ep_loop
    rw [modBuf_mid _ h0 _ n g i _ rfl hi]
    simp only [Option.bind_eq_bind, Option.some_bind, malloc, hok i (le_refl _) hi, if_true]
    rw [heap_snoc, heap_len, List.length_replicate]
    rw [modBuf_mid _ h0 _ n _ i _ rfl hi]
    simp only [Option.some_bind]
    rw [modBuf_mid _ h0 _ n _ i _ rfl hi]
    simp only [Option.some_bind, Function.update_same]
    rw [ih (i + 1) _ _ _ (by omega) (fun j h1 h2 => hok j (by omega) h2) rfl]
    have hfun : (fun t => if i + 1 ≤ t then initBuf fd bs bo iw ctx.eventfd (h0.length + 1 + t)
          else Function.update (Function.update (Function.update g i
            { cb := (g i).cb, size := bs - bo, offset := bo, buf := (g i).buf }) i
            { cb := (g i).cb, size := bs - bo, offset := bo, buf := some (h0.length + 1 + i) }) i
            { cb := setResfd (if iw ≠ 0 then
                  io_prep_pwrite fd (some ⟨h0.length + 1 + i, bo⟩) (sizeT (bs - bo)) 0
                else io_prep_pread fd (some ⟨h0.length + 1 + i, bo⟩) (sizeT (bs - bo)) 0) ctx.eventfd,
              size := bs - bo, offset := bo, buf := some (h0.length + 1 + i) } t)
        = (fun t => if i ≤ t then initBuf fd bs bo iw ctx.eventfd (h0.length + 1 + t) else g t) := by
      funext t
      by_cases h1 : i + 1 ≤ t
      · have : i ≤ t := by omega
        simp [h1, this]
      · by_cases h2 : t = i
        · subst h2; simp [initBuf]
        · have h3 : ¬ i ≤ t := by omega
          simp [h1, h2, h3, Function.update]
    simp only [hfun, List.range'_succ, List.map_cons, List.append_assoc, List.singleton_append]



theorem drop_set_self {α : Type} (l : List α) (j : Nat) (x : α) (h : j < l.length) :
    (l.set j x).drop j = x :: l.drop (j + 1) := by
  rw [List.drop_set]
  simp only [Nat.lt_irrefl, if_false, Nat.sub_self]
  rw [List.drop_eq_getElem_cons h]
  rfl

theorem init_ep_rollback_eq (h0 : List Block) (n : Nat) :
    ∀ (j : Nat) (g : Nat → EpBuf) (tl : List Block) (w : World),
      j ≤ n → j ≤ tl.length →
      (∀ t, t < j → (g t).buf = some (h0.length + 1 + t)) →
      w.heap = h0 ++ Block.bufs ((List.range n).map g) :: tl →
      init_ep_rollback h0.length j w = some { w with
        heap := h0 ++ Block.bufs ((List.range n).map (fun t =>
                  if t < j then { g t with buf := none } else g t))
                  :: (List.replicate j Block.freed ++ tl.drop j),
        frees := w.frees ++ (List.range j).reverse.map (fun t => h0.length + 1 + t) } := by
  intro j
  induction j with
  | zero =>
    intro g tl w _ _ _ hw
    obtain ⟨heap, frees, fds, ioctxs, inflight, calls⟩ := w
    simp only at hw
    subst hw
    simp [init_ep_rollback]
  | succ j ih =>
    intro g tl w hjn hjt hg hw
    obtain ⟨heap, frees, fds, ioctxs, inflight, calls⟩ := w
    simp only at hw
    subst hw
    unfold init_ep_rollback
    rw [readBuf_mid _ h0 tl n g j rfl (by omega)]
    simp only [Option.bind_eq_bind, Option.some_bind, hg j (by omega), free, heap_set_tail]
    rw [modBuf_mid _ h0 _ n g j _ rfl (by omega)]
    simp only [Option.some_bind]
    rw [ih _ _ _ (by omega) (by simp; omega) _ rfl]
    · have hfun : (fun t => if t < j then
            { (Function.update g j { cb := (g j).cb, size := (g j).size, offset := (g j).offset, buf := none } t)
                with buf := none }
          else Function.update g j { cb := (g j).cb, size := (g j).size, offset := (g j).offset, buf := none } t)
          = (fun t => if t < j + 1 then { g t with buf := none } else g t) := by
        funext t
        by_cases h1 : t < j
        · have h2 : t ≠ j := by omega
          have h3 : t < j + 1 := by omega
          simp [h1, h2, h3, Function.update]
        · by_cases h2 : t = j
          · subst h2; simp
          · have h3 : ¬ t < j + 1 := by omega
            simp [h1, h2, h3, Function.update]
      simp only [hfun, drop_set_self tl j Block.freed (by omega), List.range_succ,
        List.reverse_append, List.reverse_singleton, List.singleton_append, List.map_cons,
        List.append_assoc, List.replicate_succ']
    · intro t ht
      have h2 : t ≠ j := by omega
      simp only [Function.update, h2, dite_false]
      exact hg t (by omega)


theorem init_ep_loop_fail (ep_index : Nat) (h0 : List Block) (fd bs bo iw : Int)
    (data_ok : Nat → Bool) (n k : Nat) (hk : k < n) (hkf : data_ok k = false) (ep : Ep) :
    ∀ (rem i : Nat) (g : Nat → EpBuf) (w : World) (ctx : Ctx),
      i + rem = n → i ≤ k →
      (∀ j, i ≤ j → j < k → data_ok j = true) →
      (∀ t, t < i → (g t).buf = some (h0.length + 1 + t)) →
      w.heap = h0 ++ Block.bufs ((List.range n).map g) :: List.replicate i (Block.raw (sizeT bs)) →
      ctx.eps[ep_index]? = some ep →
      init_ep_loop ep_index h0.length fd bs bo iw data_ok rem i w ctx =
        some ({ w with
                heap := h0 ++ Block.freed :: List.replicate k Block.freed,
                frees := w.frees ++ (List.range k).reverse.map (fun t => h0.length + 1 + t)
                  ++ [h0.length] },
              { ctx with
                submit_cbs := ctx.submit_cbs ++
                  (List.range' i (k - i)).map (fun t => (⟨h0.length, t⟩ : IocbPtr)),
                eps := ctx.eps.set ep_index { ep with bufs := none } }, -ENOMEM) := by
  intro rem
  induction rem with
  | zero =>
    intro i g w ctx hin hik
    omega
  | succ rem ih =>
    intro i g w ctx hin hik hok hg hw hep
    have hi : i < n := by omega
    obtain ⟨heap, frees, fds, ioctxs, inflight, calls⟩ := w
    simp only at hw
    subst hw
    unfold init_ep_loop
    rw [modBuf_mid _ h0 _ n g i _ rfl hi]
    by_cases hik2 : i = k
    · subst hik2
      simp only [Option.bind_eq_bind, Option.some_bind, malloc, hkf]
      rw [modBuf_mid _ h0 _ n _ i _ rfl hi]
      simp only [Option.some_bind, Bool.false_eq_true, if_false]
      rw [init_ep_rollback_eq h0 n i _ _ _ (by omega) (by simp) _ rfl]
      · simp [hep, free, heap_set_mid]
      · intro t ht
        have h2 : t ≠ i := by omega
        simp only [Function.update, h2, dite_false]
        exact hg t ht
    · have hlt : i < k := by omega
      simp only [Option.bind_eq_bind, Option.some_bind, malloc, hok i (le_refl _) hlt, if_true]
      rw [heap_snoc, heap_len, List.length_replicate]
      rw [modBuf_mid _ h0 _ n _ i _ rfl hi]
      simp only [Option.some_bind]
      rw [modBuf_mid _ h0 _ n _ i _ rfl hi]
      simp only [Option.some_bind, Function.update_same]
      rw [ih (i + 1) _ _ _ (by omega) (by omega) (fun j h1 h2 => hok j (by omega) h2) _ rfl
        (by simpa using hep)]
      · have hki : k - i = (k - (i + 1)) + 1 := by omega
        rw [hki]
        simp only [List.range'_succ, List.map_cons, List.append_assoc, List.singleton_append]
      · intro t ht
        by_cases h2 : t = i
        · subst h2; simp
        · simp only [Function.update, h2, dite_false]
          exact hg t (by omega)


theorem replicate_eq_map_range {α : Type} (n : Nat) (x : α) :
    List.replicate n x = (List.range n).map (fun _ => x) := by
  apply List.ext_getElem?
  intro m
  by_cases hm : m < n
  · simp [List.getElem?_replicate, hm, List.getElem?_range hm]
  · have h1 : (List.range n)[m]? = none := List.getElem?_eq_none (by simp; omega)
    simp [List.getElem?_replicate, hm, h1]

/-- Closed form of a call of `ffs_aio_init_ep` in which every allocation succeeds. -/
theorem init_ep_ok_eq (w : World) (ctx : Ctx) (ep_index : Nat) (ep : Ep)
    (fd bc bs bo iw : Int) (data_ok : Nat → Bool)
    (hep : ctx.eps[ep_index]? = some ep)
    (hok : ∀ j, j < bc.toNat → data_ok j = true) :
    ffs_aio_init_ep w ctx ep_index fd bc bs bo iw true data_ok =
      some ({ w with heap := w.heap ++ Block.bufs ((List.range bc.toNat).map (fun t =>
                initBuf fd bs bo iw ctx.eventfd (w.heap.length + 1 + t)))
                :: List.replicate bc.toNat (Block.raw (sizeT bs)) },
            { ctx with
              submit_cbs := ctx.submit_cbs ++
                (List.range bc.toNat).map (fun t => (⟨w.heap.length, t⟩ : IocbPtr)),
              eps := ctx.eps.set ep_index ⟨fd, bc, some w.heap.length⟩ }, 0) := by
  unfold ffs_aio_init_ep
  simp only [hep, Option.bind_eq_bind, Option.some_bind, malloc, if_true]
  rw [init_ep_loop_ok ep_index w.heap fd bs bo iw data_ok bc.toNat bc.toNat 0
    (fun _ => zeroEpBuf) _ _ (by omega) (fun j _ h => hok j h)
    (by rw [← replicate_eq_map_range]; rfl)]
  simp [List.range_eq_range', List.set_set]

/-- Closed form of a call of `ffs_aio_init_ep` in which the allocation of the
data region of buffer `k` is the first to fail. -/
theorem init_ep_fail_eq (w : World) (ctx : Ctx) (ep_index : Nat) (ep : Ep)
    (fd bc bs bo iw : Int) (data_ok : Nat → Bool) (k : Nat)
    (hep : ctx.eps[ep_index]? = some ep)
    (hk : k < bc.toNat) (hkf : data_ok k = false)
    (hok : ∀ j, j < k → data_ok j = true) :
    ffs_aio_init_ep w ctx ep_index fd bc bs bo iw true data_ok =
      some ({ w with
              heap := w.heap ++ Block.freed :: List.replicate k Block.freed,
              frees := w.frees ++ (List.range k).reverse.map (fun t => w.heap.length + 1 + t)
                ++ [w.heap.length] },
            { ctx with
              submit_cbs := ctx.submit_cbs ++
                (List.range k).map (fun t => (⟨w.heap.length, t⟩ : IocbPtr)),
              eps := ctx.eps.set ep_index ⟨fd, bc, none⟩ }, -ENOMEM) := by
  unfold ffs_aio_init_ep
  simp only [hep, Option.bind_eq_bind, Option.some_bind, malloc, if_true]
  have hlt : ep_index < ctx.eps.length := by
    by_contra hcon
    have : ctx.eps[ep_index]? = none := List.getElem?_eq_none (by omega)
    rw [this] at hep
    exact Option.noConfusion hep
  rw [init_ep_loop_fail ep_index w.heap fd bs bo iw data_ok bc.toNat k hk hkf
    ⟨fd, bc, some w.heap.length⟩ bc.toNat 0
    (fun _ => zeroEpBuf) _ _ (by omega) (by omega) (fun j _ h => hok j h)
    (fun t ht => absurd ht (by omega))
    (by rw [← replicate_eq_map_range]; rfl)
    (by simp [List.getElem?_set, hlt])]
  simp [List.range_eq_range', List.set_set]

/-- Closed form of a call of `ffs_aio_init_ep` in which the allocation of the
`ep_buf` array fails. -/
theorem init_ep_nomem_eq (w : World) (ctx : Ctx) (ep_index : Nat) (ep : Ep)
    (fd bc bs bo iw : Int) (data_ok : Nat → Bool)
    (hep : ctx.eps[ep_index]? = some ep) :
    ffs_aio_init_ep w ctx ep_index fd bc bs bo iw false data_ok =
      some (w, { ctx with eps := ctx.eps.set ep_index { ep with file := fd, buf_count := bc } },
        -ENOMEM) := by
  unfold ffs_aio_init_ep
  simp [hep, malloc]

theorem first_failure (data_ok : Nat → Bool) :
    ∀ n, (∀ j, j < n → data_ok j = true) ∨
      ∃ k, k < n ∧ data_ok k = false ∧ ∀ j, j < k → data_ok j = true := by
  intro n
  induction n with
  | zero => left; intro j hj; omega
  | succ n ih =>
    rcases ih with h | ⟨k, hk, hkf, hlt⟩
    · by_cases hn : data_ok n = true
      · left
        intro j hj
        by_cases hjn : j = n
        · subst hjn; exact hn
        · exact h j (by omega)
      · right
        exact ⟨n, by omega, by simpa using hn, h⟩
    · right
      exact ⟨k, by omega, hkf, hlt⟩

/-! ## Submission -/

theorem submit_empty (w : World) (ctx : Ctx) (ret : Int) (h : ctx.submit_cbs = []) :
    ffs_aio_submit w ctx ret = (w, ctx, 0) := by
  simp [ffs_aio_submit, Ctx.submit_cbs_count, h]

theorem submit_fail (w : World) (ctx : Ctx) (ret : Int) (h : ctx.submit_cbs ≠ [])
    (hr : ret < 0) :
    ffs_aio_submit w ctx ret =
      (io_submit w ctx.ioctx ctx.submit_cbs_count ctx.submit_cbs ret, ctx, ret) := by
  have := List.length_pos.mpr h
  simp [ffs_aio_submit, Ctx.submit_cbs_count, this, hr]

theorem submit_ok (w : World) (ctx : Ctx) (ret : Int) (h : ctx.submit_cbs ≠ [])
    (hr : ¬ ret < 0) :
    ffs_aio_submit w ctx ret =
      (io_submit w ctx.ioctx ctx.submit_cbs_count ctx.submit_cbs ret,
        { ctx with submit_cbs := [] }, 0) := by
  have := List.length_pos.mpr h
  simp [ffs_aio_submit, Ctx.submit_cbs_count, this, hr]

/-- C1: when the pending list is non-empty and `io_submit` fails with a negative
code `e`, `ffs_aio_submit` returns `e`, leaves the context (the pending list
and its count in particular) as it was, and the kernel has taken nothing; a
following submit on which `io_submit` succeeds passes the same list and
returns 0. -/
theorem submit_failure_keeps_pending (w : World) (ctx : Ctx) (e : Int)
    (hne : ctx.submit_cbs ≠ []) (he : e < 0) :
    (ffs_aio_submit w ctx e).2.2 = e ∧
    (ffs_aio_submit w ctx e).2.1 = ctx ∧
    (ffs_aio_submit w ctx e).2.1.submit_cbs = ctx.submit_cbs ∧
    (ffs_aio_submit w ctx e).2.1.submit_cbs_count = ctx.submit_cbs_count ∧
    (ffs_aio_submit w ctx e).1.inflight = w.inflight ∧
    (ffs_aio_submit w ctx e).1.heap = w.heap ∧
    ∀ ret : Int, 0 ≤ ret →
      (ffs_aio_submit (ffs_aio_submit w ctx e).1 (ffs_aio_submit w ctx e).2.1 ret).2.2 = 0 ∧
      (ffs_aio_submit (ffs_aio_submit w ctx e).1 (ffs_aio_submit w ctx e).2.1 ret).1.calls =
        (ffs_aio_submit w ctx e).1.calls ++
          [Call.io_submit ctx.ioctx ctx.submit_cbs_count ctx.submit_cbs] := by
  rw [submit_fail w ctx e hne he]
  refine ⟨rfl, rfl, rfl, rfl, ?_, ?_, ?_⟩
  · simp [io_submit, he, logCall]
  · simp [io_submit, he, logCall]
  · intro ret hret
    have hnot : ¬ ret < 0 := by omega
    rw [submit_ok _ ctx ret hne hnot]
    simp [io_submit, he, hnot, logCall]

/-- Instance of C1: the four-buffer endpoint, `io_submit` failing with `-EAGAIN`. -/
theorem submit_failure_keeps_pending_witness :
    epState.ctx.submit_cbs ≠ [] ∧
    (ffs_aio_submit epState.w epState.ctx (-11)).2.2 = -11 ∧
    (ffs_aio_submit epState.w epState.ctx (-11)).2.1 = epState.ctx :=
  ⟨by decide,
   (submit_failure_keeps_pending epState.w epState.ctx (-11) (by decide) (by decide)).1,
   (submit_failure_keeps_pending epState.w epState.ctx (-11) (by decide) (by decide)).2.1⟩

/-- C8: `ffs_aio_submit` calls `io_submit` exactly when the pending list is
non-empty, once, with the whole list in order and its length as count;
whenever `io_submit` does not fail, or the list was empty, it returns 0 and
leaves the pending list empty, every other field of the context (the endpoint
array included) and the heap (every buffer) being unchanged. -/
theorem submit_hands_over_whole_list (w : World) (ctx : Ctx) (ret : Int) :
    (ffs_aio_submit w ctx ret).1.calls =
      w.calls ++ (if ctx.submit_cbs = [] then []
        else [Call.io_submit ctx.ioctx ctx.submit_cbs.length ctx.submit_cbs]) ∧
    (ffs_aio_submit w ctx ret).1.heap = w.heap ∧
    ((0 ≤ ret ∨ ctx.submit_cbs = []) →
      (ffs_aio_submit w ctx ret).2.2 = 0 ∧
      (ffs_aio_submit w ctx ret).2.1 = { ctx with submit_cbs := [] } ∧
      (ffs_aio_submit w ctx ret).2.1.submit_cbs_count = 0) := by
  by_cases hne : ctx.submit_cbs = []
  · rw [submit_empty w ctx ret hne]
    refine ⟨by simp [hne], rfl, fun _ => ⟨rfl, ?_, ?_⟩⟩
    · cases ctx; simp_all
    · simp [Ctx.submit_cbs_count, hne]
  · by_cases hr : ret < 0
    · rw [submit_fail w ctx ret hne hr]
      refine ⟨by simp [io_submit, logCall, hr, hne, Ctx.submit_cbs_count],
        by simp [io_submit, logCall, hr], ?_⟩
      intro h
      rcases h with h | h
      · omega
      · exact absurd h hne
    · rw [submit_ok w ctx ret hne hr]
      refine ⟨by simp [io_submit, logCall, hr, hne, Ctx.submit_cbs_count],
        by simp [io_submit, logCall, hr], ?_⟩
      intro _
      exact ⟨rfl, rfl, by simp [Ctx.submit_cbs_count]⟩

/-- Instance of C8: the four-buffer endpoint submits exactly four operations. -/
theorem submit_hands_over_whole_list_witness :
    (ffs_aio_submit epState.w epState.ctx 4).1.calls =
      epState.w.calls ++ [Call.io_submit 1 4 [⟨4, 0⟩, ⟨4, 1⟩, ⟨4, 2⟩, ⟨4, 3⟩]] ∧
    (ffs_aio_submit epState.w epState.ctx 4).2.2 = 0 ∧
    (ffs_aio_submit epState.w epState.ctx 4).2.1.submit_cbs_count = 0 := by
  have h := submit_hands_over_whole_list epState.w epState.ctx 4
  have h2 := h.2.2 (Or.inl (by decide))
  refine ⟨?_, h2.1, h2.2.2⟩
  rw [h.1]
  decide

/-! ## Endpoint initialisation -/

theorem init_ep_defined (w : World) (ctx : Ctx) (ep_index : Nat)
    (fd bc bs bo iw : Int) (bufs_ok : Bool) (data_ok : Nat → Bool) (r : World × Ctx × Int)
    (h : ffs_aio_init_ep w ctx ep_index fd bc bs bo iw bufs_ok data_ok = some r) :
    ∃ ep, ctx.eps[ep_index]? = some ep := by
  cases hep : ctx.eps[ep_index]? with
  | none => simp [ffs_aio_init_ep, hep] at h
  | some ep => exact ⟨ep, rfl⟩

/-- What every defined call of `ffs_aio_init_ep` does to the pending list and
to the parts of the state it does not own. -/
theorem init_ep_shape (w : World) (ctx : Ctx) (ep_index : Nat)
    (fd bc bs bo iw : Int) (bufs_ok : Bool) (data_ok : Nat → Bool)
    (w' : World) (ctx' : Ctx) (r : Int)
    (h : ffs_aio_init_ep w ctx ep_index fd bc bs bo iw bufs_ok data_ok = some (w', ctx', r)) :
    ∃ m, m ≤ bc.toNat ∧
      ctx'.submit_cbs = ctx.submit_cbs ++
        (List.range m).map (fun t => (⟨w.heap.length, t⟩ : IocbPtr)) ∧
      ctx'.events = ctx.events ∧ ctx'.max_events = ctx.max_events ∧
      w'.inflight = w.inflight ∧
      (∃ tl, w'.heap = w.heap ++ tl ∧ (0 < m → tl ≠ [])) := by
  obtain ⟨ep, hep⟩ := init_ep_defined w ctx ep_index fd bc bs bo iw bufs_ok data_ok _ h
  cases bufs_ok with
  | false =>
    rw [init_ep_nomem_eq w ctx ep_index ep fd bc bs bo iw data_ok hep] at h
    simp only [Option.some.injEq, Prod.mk.injEq] at h
    obtain ⟨hw, hc, _⟩ := h
    subst hw hc
    exact ⟨0, by omega, by simp, rfl, rfl, rfl, [], by simp, by omega⟩
  | true =>
    rcases first_failure data_ok bc.toNat with hok | ⟨k, hk, hkf, hlt⟩
    · rw [init_ep_ok_eq w ctx ep_index ep fd bc bs bo iw data_ok hep hok] at h
      simp only [Option.some.injEq, Prod.mk.injEq] at h
      obtain ⟨hw, hc, _⟩ := h
      subst hw hc
      exact ⟨bc.toNat, le_refl _, rfl, rfl, rfl, rfl, _, rfl, by simp⟩
    · rw [init_ep_fail_eq w ctx ep_index ep fd bc bs bo iw data_ok k hep hk hkf hlt] at h
      simp only [Option.some.injEq, Prod.mk.injEq] at h
      obtain ⟨hw, hc, _⟩ := h
      subst hw hc
      exact ⟨k, by omega, rfl, rfl, rfl, rfl, _, rfl, by simp⟩

/-- C2 (as stated, refuted): on Context(ep_count=2, max_events=4) the first
endpoint with four buffers succeeds and fills the list to length 4; the second
endpoint with one buffer returns 0, not an error, and the list has length 5. -/
theorem init_ep_exceeds_max_events :
    (ffs_aio_init_ep (initState 2 4).w (initState 2 4).ctx 0 7 4 4096 0 0 true allOk).map
        (fun r => r.2.2) = some 0 ∧
    capState.ctx.max_events = 4 ∧ capState.ctx.submit_cbs.length = 4 ∧
    (ffs_aio_init_ep capState.w capState.ctx 1 8 1 4096 0 0 true allOk).map
        (fun r => (r.2.2, r.2.1.submit_cbs.length)) = some (0, 5) := by
  decide

/-- C2 (amended): `ffs_aio_init_ep` on a valid endpoint index always returns,
with 0 or `-ENOMEM` and nothing else; it returns 0 exactly when every
allocation succeeds, whatever `max_events` is, and then the pending list is the
old list followed by the `buf_count` new descriptors in order, so that the list
stays within `max_events` when the old length plus `buf_count` does. -/
theorem init_ep_outcomes (w : World) (ctx : Ctx) (ep_index : Nat) (ep : Ep)
    (fd bc bs bo iw : Int) (bufs_ok : Bool) (data_ok : Nat → Bool)
    (hep : ctx.eps[ep_index]? = some ep) :
    ∃ w' ctx' r,
      ffs_aio_init_ep w ctx ep_index fd bc bs bo iw bufs_ok data_ok = some (w', ctx', r) ∧
      (r = 0 ∨ r = -ENOMEM) ∧
      (r = 0 ↔ (bufs_ok = true ∧ ∀ j, j < bc.toNat → data_ok j = true)) ∧
      ctx'.max_events = ctx.max_events ∧
      (r = 0 →
        ctx'.submit_cbs = ctx.submit_cbs ++
          (List.range bc.toNat).map (fun t => (⟨w.heap.length, t⟩ : IocbPtr)) ∧
        (ctx.submit_cbs_count + bc.toNat ≤ ctx.max_events →
          ctx'.submit_cbs_count ≤ ctx'.max_events)) := by
  have hne : (-ENOMEM : Int) ≠ 0 := by decide
  cases bufs_ok with
  | false =>
    refine ⟨_, _, _, init_ep_nomem_eq w ctx ep_index ep fd bc bs bo iw data_ok hep,
      Or.inr rfl, ?_, rfl, ?_⟩
    · simp [hne]
    · intro h; exact absurd h hne
  | true =>
    rcases first_failure data_ok bc.toNat with hok | ⟨k, hk, hkf, hlt⟩
    · refine ⟨_, _, _, init_ep_ok_eq w ctx ep_index ep fd bc bs bo iw data_ok hep hok,
        Or.inl rfl, ?_, rfl, ?_⟩
      · exact ⟨fun _ => ⟨rfl, hok⟩, fun _ => rfl⟩
      · intro _
        refine ⟨rfl, ?_⟩
        intro hroom
        simp only [Ctx.submit_cbs_count, List.length_append, List.length_map,
          List.length_range] at hroom ⊢
        push_cast
        exact hroom
    · refine ⟨_, _, _, init_ep_fail_eq w ctx ep_index ep fd bc bs bo iw data_ok k hep hk hkf hlt,
        Or.inr rfl, ?_, rfl, ?_⟩
      · constructor
        · intro h; exact absurd h hne
        · intro h
          have := h.2 k hk
          rw [hkf] at this
          exact absurd this (by decide)
      · intro h; exact absurd h hne

/-- Instance of the amended C2: the first endpoint of Context(2, 4). -/
theorem init_ep_outcomes_witness :
    ∃ w' ctx' r,
      ffs_aio_init_ep (initState 2 4).w (initState 2 4).ctx 0 7 4 4096 0 0 true allOk
        = some (w', ctx', r) ∧ (r = 0 ∨ r = -ENOMEM) := by
  obtain ⟨w', ctx', r, h, hr, _⟩ :=
    init_ep_outcomes (initState 2 4).w (initState 2 4).ctx 0 zeroEp 7 4 4096 0 0 true allOk
      (by decide)
  exact ⟨w', ctx', r, h, hr⟩

/-- C3 (the code at a failing input): on Context(ep_count=1, max_events=4) with
an empty pending list, `ffs_aio_init_ep` with two buffers whose second data
region cannot be allocated returns `-ENOMEM` and leaves the descriptor of the
freed buffer 0 in the pending list: the list has one entry, and it points into
a freed block, which can no longer be read. -/
theorem init_ep_failure_keeps_descriptor :
    (initState 1 4).ctx.submit_cbs = [] ∧
    (ffs_aio_init_ep (initState 1 4).w (initState 1 4).ctx 0 7 2 4096 0 0 true (failAt 1)).map
        (fun r => (r.2.2, r.2.1.submit_cbs, r.1.heap[4]?, r.1.readBuf ⟨4, 0⟩))
      = some (-ENOMEM, [⟨4, 0⟩], some Block.freed, none) := by
  decide

/-! ## Live blocks -/

theorem live_append_freed (w w' : World) (tl : List Block)
    (h : w'.heap = w.heap ++ tl) (hf : ∀ b, b ∈ tl → b = Block.freed) :
    w'.live = w.live := by
  unfold World.live
  rw [h, List.length_append, List.range_add, List.filter_append]
  have h2 : List.filter (fun a => decide ((w.heap ++ tl)[a]? ≠ some Block.freed))
      (List.map (fun x => w.heap.length + x) (List.range tl.length)) = [] := by
    rw [List.filter_eq_nil_iff]
    intro a ha
    obtain ⟨j, hj, rfl⟩ := List.mem_map.mp ha
    have hj2 : j < tl.length := List.mem_range.mp hj
    rw [List.getElem?_append_right (by omega)]
    have : w.heap.length + j - w.heap.length = j := by omega
    rw [this, List.getElem?_eq_getElem hj2, hf _ (List.getElem_mem hj2)]
    simp
  rw [h2, List.append_nil]
  apply List.filter_congr
  intro a ha
  have ha2 : a < w.heap.length := List.mem_range.mp ha
  rw [List.getElem?_append_left ha2]

/-- C4: if the data region of buffer `k` (`k < buf_count`) is the first whose
allocation fails, `ffs_aio_init_ep` returns `-ENOMEM`; its `free` calls are
exactly the data regions of buffers `k-1, …, 0` allocated in this call (the
blocks `a+1+t` after the array block `a`) followed by the buffer array `a`
itself; the blocks live afterwards are those live before; the endpoint's
`bufs` field is NULL; and the iteration of the destroy loop for that endpoint
then frees nothing. -/
theorem init_ep_alloc_failure_cleanup (w : World) (ctx : Ctx) (ep_index : Nat) (ep : Ep)
    (fd bc bs bo iw : Int) (data_ok : Nat → Bool) (k : Nat)
    (hep : ctx.eps[ep_index]? = some ep)
    (hk : (k : Int) < bc) (hkf : data_ok k = false)
    (hok : ∀ j, j < k → data_ok j = true) :
    ∃ w' ctx',
      ffs_aio_init_ep w ctx ep_index fd bc bs bo iw true data_ok = some (w', ctx', -ENOMEM) ∧
      w'.frees = w.frees ++ (List.range k).reverse.map (fun t => w.heap.length + 1 + t)
        ++ [w.heap.length] ∧
      w'.heap = w.heap ++ List.replicate (k + 1) Block.freed ∧
      w'.live = w.live ∧
      ctx'.eps[ep_index]? = some ⟨fd, bc, none⟩ ∧
      ∀ (rem : Nat) (wx : World),
        free_eps_loop ctx' (rem + 1) ep_index wx = free_eps_loop ctx' rem (ep_index + 1) wx := by
  have hk2 : k < bc.toNat := by omega
  have hlt : ep_index < ctx.eps.length := by
    by_contra hcon
    have : ctx.eps[ep_index]? = none := List.getElem?_eq_none (by omega)
    rw [this] at hep
    exact Option.noConfusion hep
  refine ⟨_, _, init_ep_fail_eq w ctx ep_index ep fd bc bs bo iw data_ok k hep hk2 hkf hok,
    rfl, ?_, ?_, ?_, ?_⟩
  · simp [List.replicate_succ]
  · apply live_append_freed w _ (Block.freed :: List.replicate k Block.freed) rfl
    intro b hb
    rcases List.mem_cons.mp hb with h | h
    · exact h
    · exact (List.mem_replicate.mp h).2
  · simp [List.getElem?_set, hlt]
  · intro rem wx
    have : (ctx.eps.set ep_index ⟨fd, bc, none⟩)[ep_index]? = some ⟨fd, bc, none⟩ := by
      simp [List.getElem?_set, hlt]
    simp [free_eps_loop, this]

/-- Instance of C4: three buffers, the third data region cannot be allocated;
the destroy that follows frees no block twice. -/
theorem init_ep_alloc_failure_cleanup_witness :
    ∃ w' ctx',
      ffs_aio_init_ep (initState 1 4).w (initState 1 4).ctx 0 7 3 4096 0 0 true (failAt 2)
        = some (w', ctx', -ENOMEM) ∧
      w'.frees = [6, 5, 4] ∧ ctx'.eps[0]? = some ⟨7, 3, none⟩ ∧
      (ffs_aio_free w' ctx').map (fun x => x.frees) = some [6, 5, 4, 1, 2, 3, 0] := by
  obtain ⟨w', ctx', h, hf, _, _, he, _⟩ :=
    init_ep_alloc_failure_cleanup (initState 1 4).w (initState 1 4).ctx 0 zeroEp 7 3 4096 0 0
      (failAt 2) 2 (by decide) (by decide) (by decide) (by decide)
  refine ⟨w', ctx', h, by rw [hf]; decide, he, ?_⟩
  have hd : (ffs_aio_init_ep (initState 1 4).w (initState 1 4).ctx 0 7 3 4096 0 0 true
      (failAt 2)).bind (fun r => (ffs_aio_free r.1 r.2.1).map (fun x => x.frees))
      = some [6, 5, 4, 1, 2, 3, 0] := by decide
  rw [h] at hd
  exact hd

/-! ## Context creation and destruction -/

/-- Closed form of a successful `ffs_aio_init`. -/
theorem init_ok_eq (w0 : World) (env : InitEnv) (ep_count max_events : Int)
    (w : World) (ctx : Ctx)
    (h : ffs_aio_init w0 env ep_count max_events = (w, Except.ok ctx)) :
    w = { w0 with
          heap := w0.heap ++ [Block.raw 56, Block.raw (sizeT max_events * 32 % 2 ^ 64),
            Block.raw (sizeT max_events * 8 % 2 ^ 64), Block.raw (sizeT ep_count * 16 % 2 ^ 64)],
          fds := w0.fds ++ [env.eventfd_ret],
          ioctxs := w0.ioctxs ++ [env.io_setup_handle],
          calls := w0.calls ++ [Call.io_setup max_events, Call.eventfd] } ∧
    ctx = { self := w0.heap.length, ioctx := env.io_setup_handle, eventfd := env.eventfd_ret,
            max_events := max_events, events_ptr := w0.heap.length + 1, events := [],
            submit_cbs_ptr := w0.heap.length + 2, submit_cbs := [],
            ep_count := ep_count, eps_ptr := w0.heap.length + 3,
            eps := List.replicate ep_count.toNat zeroEp } := by
  obtain ⟨ctx_ok, sr, sh, er, en, eo, so, po⟩ := env
  cases ctx_ok <;> cases eo <;> cases so <;> cases po <;>
    by_cases h1 : sr < 0 <;> by_cases h2 : er < 0 <;>
    simp [ffs_aio_init, malloc, io_setup, eventfd, logCall, free, h1, h2] at h ⊢
  obtain ⟨hw, hc⟩ := h
  subst hw hc
  simp

theorem free_eps_loop_no_bufs (ctx : Ctx) (hz : ∀ (j : Nat) (ep : Ep), ctx.eps[j]? = some ep → ep.bufs = none) :
    ∀ (rem i : Nat) (w : World), i + rem ≤ ctx.eps.length →
      free_eps_loop ctx rem i w = some w := by
  intro rem
  induction rem with
  | zero => intro i w _; rfl
  | succ rem ih =>
    intro i w hi
    have hlt : i < ctx.eps.length := by omega
    have hget : ctx.eps[i]? = some ctx.eps[i] := List.getElem?_eq_getElem hlt
    have hb := hz i _ hget
    unfold free_eps_loop
    simp only [hget, Option.bind_eq_bind, Option.some_bind, hb]
    exact ih (i + 1) w (by omega)

theorem set_four {α : Type} (h0 : List α) (a b c d x : α) :
    ((((h0 ++ [a, b, c, d]).set (h0.length + 1) x).set (h0.length + 2) x).set
      (h0.length + 3) x).set h0.length x = h0 ++ [x, x, x, x] := by
  have e1 : h0.length + 1 = h0.length + 1 + 0 := rfl
  have e2 : h0.length + 2 = h0.length + 1 + 1 := rfl
  have e3 : h0.length + 3 = h0.length + 1 + 2 := rfl
  rw [e1, heap_set_tail, e2, heap_set_tail, e3, heap_set_tail, heap_set_mid]
  rfl

/-- What `ffs_aio_free` does right after a successful `ffs_aio_init`: every
block allocated by the initialisation is freed and the AIO handle destroyed,
with no `read`, `io_submit` or `io_getevents`; the eventfd stays open. -/
theorem init_then_free (w0 : World) (env : InitEnv) (ep_count max_events : Int)
    (w : World) (ctx : Ctx)
    (h : ffs_aio_init w0 env ep_count max_events = (w, Except.ok ctx)) :
    ∃ w', ffs_aio_free w ctx = some w' ∧
      w'.live = w0.live ∧
      w'.ioctxs = (w0.ioctxs ++ [env.io_setup_handle]).erase env.io_setup_handle ∧
      w'.calls = w0.calls ++
        [Call.io_setup max_events, Call.eventfd, Call.io_destroy env.io_setup_handle] ∧
      w'.fds = w0.fds ++ [env.eventfd_ret] := by
  obtain ⟨hw, hc⟩ := init_ok_eq w0 env ep_count max_events w ctx h
  subst hw hc
  have hloop : ∀ wx : World, free_eps_loop
      { self := w0.heap.length, ioctx := env.io_setup_handle, eventfd := env.eventfd_ret,
        max_events := max_events, events_ptr := w0.heap.length + 1, events := [],
        submit_cbs_ptr := w0.heap.length + 2, submit_cbs := [],
        ep_count := ep_count, eps_ptr := w0.heap.length + 3,
        eps := List.replicate ep_count.toNat zeroEp } ep_count.toNat 0 wx = some wx := by
    intro wx
    apply free_eps_loop_no_bufs
    · intro j ep hj
      simp only [List.getElem?_replicate] at hj
      split at hj
      · simp only [Option.some.injEq] at hj
        rw [← hj]; rfl
      · exact Option.noConfusion hj
    · simp
  simp only [ffs_aio_free, Option.bind_eq_bind, hloop, Option.some_bind]
  refine ⟨_, rfl, ?_, ?_, ?_, ?_⟩
  · apply live_append_freed w0 _ [Block.freed, Block.freed, Block.freed, Block.freed]
    · simp only [free, io_destroy, logCall]
      exact set_four w0.heap _ _ _ _ Block.freed
    · intro b hb
      simp at hb
      exact hb
  · simp [free, io_destroy, logCall]
  · simp [free, io_destroy, logCall]
  · simp [free, io_destroy, logCall]

/-- C10 (the code at a failing input): after `ffs_aio_init(1, 4)` in an empty
world followed at once by `ffs_aio_free`, no block is live, no AIO handle is
left and the kernel calls made are `io_setup`, `eventfd` and `io_destroy`; but
the eventfd, descriptor 5, which was not open before, is still open: the
destroy never closes it. -/
theorem init_free_leaves_eventfd_open :
    World.empty.fds = [] ∧
    (ffs_aio_init World.empty envOk0 1 4).1.fds = [5] ∧
    (ffs_aio_free (initState 1 4).w (initState 1 4).ctx).map
        (fun w => (w.live, w.ioctxs, w.fds, w.calls))
      = some ([], [], [5], [Call.io_setup 4, Call.eventfd, Call.io_destroy 1]) := by
  decide

/-! ## Reading and re-arming completions -/

theorem modBuf_eq (w w' : World) (p : IocbPtr) (f : EpBuf → EpBuf)
    (h : w.modBuf p f = some w') :
    ∃ arr b, w.heap[p.block]? = some (Block.bufs arr) ∧ arr[p.idx]? = some b ∧
      w' = { w with heap := w.heap.set p.block (Block.bufs (arr.set p.idx (f b))) } := by
  unfold World.modBuf at h
  split at h
  · rename_i arr harr
    split at h
    · rename_i b hb
      simp only [Option.some.injEq] at h
      exact ⟨arr, b, harr, hb, h.symm⟩
    · exact Option.noConfusion h
  · exact Option.noConfusion h

theorem readBuf_modBuf (w w' : World) (p q : IocbPtr) (f : EpBuf → EpBuf)
    (h : w.modBuf p f = some w') :
    w'.readBuf q = if q = p then (w.readBuf p).map f else w.readBuf q := by
  obtain ⟨arr, b, harr, hb, rfl⟩ := modBuf_eq w w' p f h
  have hlt : p.block < w.heap.length := by
    by_contra hcon
    have : w.heap[p.block]? = none := List.getElem?_eq_none (Nat.le_of_not_lt hcon)
    rw [this] at harr
    exact Option.noConfusion harr
  have hlt2 : p.idx < arr.length := by
    by_contra hcon
    have : arr[p.idx]? = none := List.getElem?_eq_none (Nat.le_of_not_lt hcon)
    rw [this] at hb
    exact Option.noConfusion hb
  obtain ⟨qb, qi⟩ := q
  obtain ⟨pb, pi⟩ := p
  simp only at harr hb hlt hlt2
  by_cases hbq : qb = pb
  · subst hbq
    by_cases hiq : qi = pi
    · subst hiq
      simp [World.readBuf, harr, hb, List.getElem?_set, hlt, hlt2]
    · have : ¬ pi = qi := fun h => hiq h.symm
      simp [World.readBuf, harr, List.getElem?_set, hlt, hiq, this]
  · have : ¬ pb = qb := fun h => hbq h.symm
    simp [World.readBuf, List.getElem?_set, hbq, this]

theorem prep_eq (prep : Int → Option DataPtr → Nat → Int → Iocb)
    (w : World) (ctx : Ctx) (i : Nat) (ev : IoEvent) (B : EpBuf)
    (hev : ctx.events[i]? = some ev) (hB : w.readBuf ev.obj = some B) :
    ∃ w', w.modBuf ev.obj (fun b => { b with
        cb := setResfd (prep B.cb.aio_fildes (B.buf.map (fun d => ⟨d, B.offset⟩))
          (sizeT B.size) 0) ctx.eventfd }) = some w' ∧
      ffs_aio_prep prep w ctx i =
        some (w', { ctx with submit_cbs := ctx.submit_cbs ++ [ev.obj] }) := by
  have hmod : ∃ w', w.modBuf ev.obj (fun b => { b with
        cb := setResfd (prep B.cb.aio_fildes (B.buf.map (fun d => ⟨d, B.offset⟩))
          (sizeT B.size) 0) ctx.eventfd }) = some w' := by
    unfold World.readBuf at hB
    unfold World.modBuf
    split at hB
    · rename_i arr harr
      simp [harr, hB]
    · exact Option.noConfusion hB
  obtain ⟨w', hw'⟩ := hmod
  refine ⟨w', hw', ?_⟩
  simp [ffs_aio_prep, hev, hB, hw']

theorem prep_defined (prep : Int → Option DataPtr → Nat → Int → Iocb)
    (w : World) (ctx : Ctx) (i : Nat) (r : World × Ctx)
    (h : ffs_aio_prep prep w ctx i = some r) :
    ∃ ev B, ctx.events[i]? = some ev ∧ w.readBuf ev.obj = some B := by
  cases hev : ctx.events[i]? with
  | none => simp [ffs_aio_prep, hev] at h
  | some ev =>
    cases hB : w.readBuf ev.obj with
    | none => simp [ffs_aio_prep, hev, hB] at h
    | some B => exact ⟨ev, B, rfl, hB⟩

/-- C9: for a completion record at index `i` whose descriptor belongs to a
buffer `B` with descriptor number `fd`, usable length `buf_size - buf_offset`,
header offset `buf_offset` and data region `d` (what `ffs_aio_init_ep` stores,
whatever the descriptor's opcode is now), `ffs_aio_prep_read` makes the
descriptor a read and `ffs_aio_prep_write` a write, on `fd`, at `d + buf_offset`,
of `buf_size - buf_offset` bytes (as a `size_t`; the same number whenever
`buf_offset ≤ buf_size`), with the eventfd as notification descriptor; the other
fields of `B` and every other buffer are unchanged, and that one descriptor is
appended to the pending list. -/
theorem rearm_rewrites_descriptor (w : World) (ctx : Ctx) (i : Nat) (ev : IoEvent) (B : EpBuf)
    (fd bs bo : Int) (d : Addr)
    (hev : ctx.events[i]? = some ev) (hB : w.readBuf ev.obj = some B)
    (hfd : B.cb.aio_fildes = fd) (hsize : B.size = bs - bo) (hoff : B.offset = bo)
    (hbuf : B.buf = some d) :
    (∃ w' ctx', ffs_aio_prep_read w ctx i = some (w', ctx') ∧
      w'.readBuf ev.obj = some { B with cb :=
        { aio_lio_opcode := IO_CMD_PREAD, aio_reqprio := 0, aio_fildes := fd,
          buf := some ⟨d, bo⟩, nbytes := sizeT (bs - bo), offset := 0,
          flags := IOCB_FLAG_RESFD, resfd := ctx.eventfd } } ∧
      (∀ q, q ≠ ev.obj → w'.readBuf q = w.readBuf q) ∧
      ctx'.submit_cbs = ctx.submit_cbs ++ [ev.obj] ∧
      ctx'.submit_cbs_count = ctx.submit_cbs_count + 1) ∧
    (∃ w' ctx', ffs_aio_prep_write w ctx i = some (w', ctx') ∧
      w'.readBuf ev.obj = some { B with cb :=
        { aio_lio_opcode := IO_CMD_PWRITE, aio_reqprio := 0, aio_fildes := fd,
          buf := some ⟨d, bo⟩, nbytes := sizeT (bs - bo), offset := 0,
          flags := IOCB_FLAG_RESFD, resfd := ctx.eventfd } } ∧
      (∀ q, q ≠ ev.obj → w'.readBuf q = w.readBuf q) ∧
      ctx'.submit_cbs = ctx.submit_cbs ++ [ev.obj] ∧
      ctx'.submit_cbs_count = ctx.submit_cbs_count + 1) ∧
    (bo ≤ bs → bs - bo < 2 ^ 64 → (sizeT (bs - bo) : Int) = bs - bo) := by
  refine ⟨?_, ?_, ?_⟩
  · obtain ⟨w', hmod, hprep⟩ := prep_eq io_prep_pread w ctx i ev B hev hB
    refine ⟨w', _, hprep, ?_, ?_, rfl, ?_⟩
    · rw [readBuf_modBuf w w' ev.obj ev.obj _ hmod, hB]
      simp [hfd, hsize, hoff, hbuf, setResfd, io_prep_pread, io_prep, IOCB_FLAG_RESFD]
    · intro q hq
      rw [readBuf_modBuf w w' ev.obj q _ hmod]
      simp [hq]
    · simp [Ctx.submit_cbs_count]
  · obtain ⟨w', hmod, hprep⟩ := prep_eq io_prep_pwrite w ctx i ev B hev hB
    refine ⟨w', _, hprep, ?_, ?_, rfl, ?_⟩
    · rw [readBuf_modBuf w w' ev.obj ev.obj _ hmod, hB]
      simp [hfd, hsize, hoff, hbuf, setResfd, io_prep_pwrite, io_prep, IOCB_FLAG_RESFD]
    · intro q hq
      rw [readBuf_modBuf w w' ev.obj q _ hmod]
      simp [hq]
    · simp [Ctx.submit_cbs_count]
  · intro h1 h2
    unfold sizeT
    have h3 : 0 ≤ bs - bo := by omega
    rw [Int.emod_eq_of_lt h3 h2, Int.toNat_of_nonneg h3]

/-- Instance of C9: a buffer initialised for reading and completed is re-armed
for writing. -/
theorem rearm_rewrites_descriptor_witness :
    ∃ w' ctx', ffs_aio_prep_write tripState.w tripState.ctx 0 = some (w', ctx') ∧
      (tripState.w.readBuf ⟨4, 2⟩).map (fun b => b.cb.aio_lio_opcode) = some IO_CMD_PREAD ∧
      (w'.readBuf ⟨4, 2⟩).map (fun b => b.cb) = some
        { aio_lio_opcode := IO_CMD_PWRITE, aio_reqprio := 0, aio_fildes := 7,
          buf := some ⟨7, 0⟩, nbytes := 4096, offset := 0, flags := 1, resfd := 5 } ∧
      ctx'.submit_cbs = [⟨4, 2⟩] := by
  obtain ⟨_, ⟨w', ctx', h, hr, _, hs, _⟩, _⟩ :=
    rearm_rewrites_descriptor tripState.w tripState.ctx 0 ⟨0, ⟨4, 2⟩, 512, 0⟩
      (initBuf 7 4096 0 0 5 7) 7 4096 0 7 (by decide) (by decide) rfl rfl rfl rfl
  refine ⟨w', ctx', h, by decide, ?_, ?_⟩
  · rw [hr]; decide
  · rw [hs]; decide

/-! ## Buffers keep their endpoint and data region -/

theorem sameBuffer_refl (b : EpBuf) : sameBuffer b b := ⟨rfl, rfl, rfl, rfl⟩

theorem sameBuffer_trans (a b c : EpBuf) (h1 : sameBuffer a b) (h2 : sameBuffer b c) :
    sameBuffer a c :=
  ⟨h2.1.trans h1.1, h2.2.1.trans h1.2.1, h2.2.2.1.trans h1.2.2.1, h2.2.2.2.trans h1.2.2.2⟩

theorem readBuf_lt (w : World) (p : IocbPtr) (B : EpBuf) (h : w.readBuf p = some B) :
    p.block < w.heap.length := by
  by_contra hcon
  have : w.heap[p.block]? = none := List.getElem?_eq_none (Nat.le_of_not_lt hcon)
  simp [World.readBuf, this] at h

theorem readBuf_congr (w w' : World) (h : w'.heap = w.heap) (p : IocbPtr) :
    w'.readBuf p = w.readBuf p := by
  simp [World.readBuf, h]

theorem readBuf_append (w w' : World) (tl : List Block) (h : w'.heap = w.heap ++ tl)
    (p : IocbPtr) (B : EpBuf) (hB : w.readBuf p = some B) : w'.readBuf p = some B := by
  have hlt := readBuf_lt w p B hB
  unfold World.readBuf at hB ⊢
  rw [h, List.getElem?_append_left hlt]
  exact hB

theorem submit_heap (w : World) (ctx : Ctx) (ret : Int) :
    (ffs_aio_submit w ctx ret).1.heap = w.heap := by
  by_cases hne : ctx.submit_cbs = []
  · rw [submit_empty w ctx ret hne]
  · by_cases hr : ret < 0
    · rw [submit_fail w ctx ret hne hr]
      simp [io_submit, logCall, hr]
    · rw [submit_ok w ctx ret hne hr]
      simp [io_submit, logCall, hr]

theorem read_events_heap (w : World) (ctx : Ctx) (read_ret errno ret : Int)
    (evs : List IoEvent) :
    (ffs_aio_read_events w ctx read_ret errno ret evs).1.heap = w.heap := by
  unfold ffs_aio_read_events io_getevents logCall
  split <;> rfl

theorem prep_sameBuffer (prep : Int → Option DataPtr → Nat → Int → Iocb)
    (hprep : ∀ fd b n o, (prep fd b n o).aio_fildes = fd)
    (w : World) (ctx : Ctx) (i : Nat) (r : World × Ctx)
    (h : ffs_aio_prep prep w ctx i = some r) (p : IocbPtr) (B : EpBuf)
    (hB : w.readBuf p = some B) :
    ∃ B', r.1.readBuf p = some B' ∧ sameBuffer B B' := by
  obtain ⟨ev, B0, hev, hB0⟩ := prep_defined prep w ctx i r h
  obtain ⟨w', hmod, heq⟩ := prep_eq prep w ctx i ev B0 hev hB0
  rw [heq] at h
  simp only [Option.some.injEq] at h
  subst h
  simp only
  rw [readBuf_modBuf w w' ev.obj p _ hmod]
  by_cases hp : p = ev.obj
  · subst hp
    rw [hB] at hB0
    simp only [Option.some.injEq] at hB0
    subst hB0
    simp only [if_true, hB, Option.map_some']
    exact ⟨_, rfl, by simp [setResfd, hprep], rfl, rfl, rfl⟩
  · simp only [hp, if_false]
    exact ⟨B, hB, sameBuffer_refl B⟩

theorem io_prep_pread_fildes (fd : Int) (b : Option DataPtr) (n : Nat) (o : Int) :
    (io_prep_pread fd b n o).aio_fildes = fd := rfl

theorem io_prep_pwrite_fildes (fd : Int) (b : Option DataPtr) (n : Nat) (o : Int) :
    (io_prep_pwrite fd b n o).aio_fildes = fd := rfl

theorem step_sameBuffer (op : Op) (s s' : State) (h : step op s = some s')
    (p : IocbPtr) (B : EpBuf) (hB : s.w.readBuf p = some B) :
    ∃ B', s'.w.readBuf p = some B' ∧ sameBuffer B B' := by
  cases op with
  | init_ep ep_index fd bc bs bo iw bufs_ok data_ok =>
    simp only [step, Option.map_eq_some'] at h
    obtain ⟨⟨w', ctx', r⟩, hr, rfl⟩ := h
    obtain ⟨m, _, _, _, _, _, tl, htl, _⟩ :=
      init_ep_shape s.w s.ctx ep_index fd bc bs bo iw bufs_ok data_ok w' ctx' r hr
    exact ⟨B, readBuf_append s.w w' tl htl p B hB, sameBuffer_refl B⟩
  | submit ret =>
    simp only [step, Option.some.injEq] at h
    subst h
    refine ⟨B, ?_, sameBuffer_refl B⟩
    rw [readBuf_congr s.w _ (submit_heap s.w s.ctx ret)]
    exact hB
  | poll read_ret errno ret evs =>
    simp only [step] at h
    refine ⟨B, ?_, sameBuffer_refl B⟩
    split at h <;>
      (simp only [Option.some.injEq] at h
       subst h
       rw [readBuf_congr s.w _ (read_events_heap s.w s.ctx read_ret errno ret evs)]
       exact hB)
  | rearm_read i =>
    simp only [step, Option.map_eq_some'] at h
    obtain ⟨r, hr, rfl⟩ := h
    exact prep_sameBuffer io_prep_pread io_prep_pread_fildes s.w s.ctx i r hr p B hB
  | rearm_write i =>
    simp only [step, Option.map_eq_some'] at h
    obtain ⟨r, hr, rfl⟩ := h
    exact prep_sameBuffer io_prep_pwrite io_prep_pwrite_fildes s.w s.ctx i r hr p B hB

theorem run_sameBuffer (ops : List Op) :
    ∀ (s s' : State), run ops s = some s' →
      ∀ (p : IocbPtr) (B : EpBuf), s.w.readBuf p = some B →
        ∃ B', s'.w.readBuf p = some B' ∧ sameBuffer B B' := by
  induction ops with
  | nil =>
    intro s s' h p B hB
    simp only [run, Option.some.injEq] at h
    subst h
    exact ⟨B, hB, sameBuffer_refl B⟩
  | cons op ops ih =>
    intro s s' h p B hB
    simp only [run, Option.bind_eq_some] at h
    obtain ⟨s1, h1, h2⟩ := h
    obtain ⟨B1, hB1, hs1⟩ := step_sameBuffer op s s1 h1 p B hB
    obtain ⟨B2, hB2, hs2⟩ := ih s1 s' h2 p B1 hB1
    exact ⟨B2, hB2, sameBuffer_trans B B1 B2 hs1 hs2⟩

theorem int32_of_range (x : Int) (h1 : -2 ^ 31 ≤ x) (h2 : x < 2 ^ 31) : int32 x = x := by
  unfold int32
  norm_num at h1 h2 ⊢
  omega

/-- C7: after a call of `ffs_aio_init_ep` with `(fd, buf_count, buf_size,
buf_offset, direction)` that returned 0, the endpoint refers to the new buffer
array `a`, buffer `j < buf_count` of it has its own data region, the block
`a+1+j` of `buf_size` bytes, which no other buffer of the array has; and in
every state reached from there by further calls, for a completion record at
index `i` that refers to the descriptor of buffer `j`, `ffs_aio_event_data`
reports the configured `fd`, the record's result (converted to `int32_t`, which
leaves a value in the 32-bit range as it is), the configured `buf_offset`, and
the data region of buffer `j`. -/
theorem extract_round_trip (w : World) (ctx : Ctx) (ep_index : Nat)
    (fd bc bs bo iw : Int) (bufs_ok : Bool) (data_ok : Nat → Bool)
    (w1 : World) (ctx1 : Ctx)
    (hinit : ffs_aio_init_ep w ctx ep_index fd bc bs bo iw bufs_ok data_ok
      = some (w1, ctx1, 0))
    (j : Nat) (hj : (j : Int) < bc) :
    ctx1.eps[ep_index]? = some ⟨fd, bc, some w.heap.length⟩ ∧
    w1.readBuf ⟨w.heap.length, j⟩ =
      some (initBuf fd bs bo iw ctx.eventfd (w.heap.length + 1 + j)) ∧
    w1.heap[w.heap.length + 1 + j]? = some (Block.raw (sizeT bs)) ∧
    (∀ (j' : Nat) (B' : EpBuf), j' ≠ j → w1.readBuf ⟨w.heap.length, j'⟩ = some B' →
      B'.buf ≠ some (w.heap.length + 1 + j)) ∧
    ∀ (last : Nat) (avail : List Nat) (total : Nat) (ops : List Op) (s2 : State),
      run ops { w := w1, ctx := ctx1, last := last, avail := avail, total := total } = some s2 →
      ∀ (i : Nat) (ev : IoEvent) (r : Int),
        s2.ctx.events[i]? = some ev → ev.obj = ⟨w.heap.length, j⟩ → ev.res = r →
        ffs_aio_event_data s2.w s2.ctx i =
          some { fd := fd, result := int32 r, offset := bo,
                 buf := some (w.heap.length + 1 + j) } ∧
        (-2 ^ 31 ≤ r → r < 2 ^ 31 → int32 r = r) := by
  obtain ⟨ep, hep⟩ := init_ep_defined w ctx ep_index fd bc bs bo iw bufs_ok data_ok _ hinit
  have hne : (-ENOMEM : Int) ≠ 0 := by decide
  have hjn : j < bc.toNat := by omega
  have hlt : ep_index < ctx.eps.length := by
    by_contra hcon
    have : ctx.eps[ep_index]? = none := List.getElem?_eq_none (Nat.le_of_not_lt hcon)
    rw [this] at hep
    exact Option.noConfusion hep
  -- a call that returns 0 is one in which every allocation succeeded
  have hall : bufs_ok = true ∧ ∀ t, t < bc.toNat → data_ok t = true := by
    cases bufs_ok with
    | false =>
      rw [init_ep_nomem_eq w ctx ep_index ep fd bc bs bo iw data_ok hep] at hinit
      simp only [Option.some.injEq, Prod.mk.injEq] at hinit
      exact absurd hinit.2.2 hne
    | true =>
      rcases first_failure data_ok bc.toNat with hok | ⟨k, hk, hkf, hlt⟩
      · exact ⟨rfl, hok⟩
      · rw [init_ep_fail_eq w ctx ep_index ep fd bc bs bo iw data_ok k hep hk hkf hlt] at hinit
        simp only [Option.some.injEq, Prod.mk.injEq] at hinit
        exact absurd hinit.2.2 hne
  obtain ⟨hb, hok⟩ := hall
  subst hb
  rw [init_ep_ok_eq w ctx ep_index ep fd bc bs bo iw data_ok hep hok] at hinit
  simp only [Option.some.injEq, Prod.mk.injEq, and_true] at hinit
  obtain ⟨hw1, hc1⟩ := hinit
  have hread : ∀ t, t < bc.toNat → w1.readBuf ⟨w.heap.length, t⟩ =
      some (initBuf fd bs bo iw ctx.eventfd (w.heap.length + 1 + t)) := by
    intro t ht
    exact readBuf_mid w1 w.heap _ bc.toNat _ t (by rw [← hw1]) ht
  refine ⟨?_, hread j hjn, ?_, ?_, ?_⟩
  · rw [← hc1]
    simp [List.getElem?_set, hlt]
  · rw [← hw1]
    simp only
    rw [heap_get_tail, List.getElem?_replicate]
    simp [hjn]
  · intro j' B' hne' hB'
    by_cases hj' : j' < bc.toNat
    · rw [hread j' hj'] at hB'
      simp only [Option.some.injEq] at hB'
      rw [← hB']
      simp only [initBuf, ne_eq, Option.some.injEq]
      intro h
      exact hne' (Nat.add_left_cancel h)
    · exfalso
      rw [← hw1] at hB'
      simp only [World.readBuf, heap_get_mid] at hB'
      have : ((List.range bc.toNat).map (fun t =>
          initBuf fd bs bo iw ctx.eventfd (w.heap.length + 1 + t)))[j']? = none :=
        List.getElem?_eq_none (by simp; omega)
      rw [this] at hB'
      exact Option.noConfusion hB'
  · intro last avail total ops s2 hrun i ev r hev hobj hres
    obtain ⟨B', hB', hsame⟩ := run_sameBuffer ops _ s2 hrun ⟨w.heap.length, j⟩ _ (hread j hjn)
    refine ⟨?_, int32_of_range r⟩
    simp only [ffs_aio_event_data, hev, hobj, hB', Option.bind_eq_bind, Option.some_bind,
      Option.some.injEq]
    obtain ⟨h1, _, h3, h4⟩ := hsame
    rw [h1, h3, h4, hres]
    simp only [initBuf, setResfd]
    split <;> rfl

/-- Instance of C7: `buf_count = 3`, completion of buffer 2. -/
theorem extract_round_trip_witness :
    ffs_aio_event_data tripState.w tripState.ctx 0 =
      some { fd := 7, result := 512, offset := 0, buf := some 7 } := by
  have h := (extract_round_trip (initState 1 4).w (initState 1 4).ctx 0 7 3 4096 0 0 true allOk
    (after [Op.init_ep 0 7 3 4096 0 0 true allOk] (initState 1 4)).w
    (after [Op.init_ep 0 7 3 4096 0 0 true allOk] (initState 1 4)).ctx
    (by decide) 2 (by decide)).2.2.2.2 0 [] 3
    [Op.submit 3, Op.poll 8 0 1 [{ data := 0, obj := ⟨4, 2⟩, res := 512, res2 := 0 }]]
    tripState (by decide) 0 { data := 0, obj := ⟨4, 2⟩, res := 512, res2 := 0 } 512
    (by decide) (by decide) rfl
  exact h.1

/-! ## The descriptors the engine is responsible for -/

theorem objAt_congr (ctx ctx' : Ctx) (h : ctx'.events = ctx.events) : objAt ctx' = objAt ctx := by
  funext i
  simp [objAt, h]

theorem map_objAt_stored (ctx : Ctx) (evs rest : List IoEvent) (h : ctx.events = evs ++ rest) :
    (List.range evs.length).map (objAt ctx) = evs.map IoEvent.obj := by
  apply List.ext_getElem?
  intro i
  by_cases hi : i < evs.length
  · simp [List.getElem?_range hi, objAt, h, List.getElem?_append_left hi,
      List.getElem?_eq_getElem hi]
  · have h1 : (List.range evs.length)[i]? = none := List.getElem?_eq_none (by simp; omega)
    have h2 : evs[i]? = none := List.getElem?_eq_none (by omega)
    simp [h1, h2]

theorem step_owned_init_ep (s s' : State) (ep_index : Nat) (fd bc bs bo iw : Int)
    (bufs_ok : Bool) (data_ok : Nat → Bool)
    (h : step (Op.init_ep ep_index fd bc bs bo iw bufs_ok data_ok) s = some s') :
    ∃ m, m ≤ bc.toNat ∧
      owned s' = (s.ctx.submit_cbs ++ (List.range m).map (fun t => (⟨s.w.heap.length, t⟩ : IocbPtr)))
        ++ s.w.inflight ++ s.avail.map (objAt s.ctx) ∧
      s'.total = s.total + bc.toNat ∧ s'.ctx.max_events = s.ctx.max_events ∧
      s.w.heap.length ≤ s'.w.heap.length ∧ (0 < m → s.w.heap.length < s'.w.heap.length) := by
  simp only [step, Option.map_eq_some'] at h
  obtain ⟨⟨w', ctx', r⟩, hr, rfl⟩ := h
  obtain ⟨m, hm, hsub, hev, hmax, hin, tl, htl, hne⟩ :=
    init_ep_shape s.w s.ctx ep_index fd bc bs bo iw bufs_ok data_ok w' ctx' r hr
  refine ⟨m, hm, ?_, rfl, hmax, ?_, ?_⟩
  · simp only [owned, hsub, hin, objAt_congr s.ctx ctx' hev]
  · simp only [htl, List.length_append]; omega
  · intro hpos
    have := List.length_pos.mpr (hne hpos)
    simp only [htl, List.length_append]; omega

theorem step_owned_submit (s s' : State) (ret : Int) (h : step (Op.submit ret) s = some s') :
    List.Subperm (owned s') (owned s) ∧ s'.total = s.total ∧
      s'.ctx.max_events = s.ctx.max_events ∧ s'.w.heap.length = s.w.heap.length := by
  simp only [step, Option.some.injEq] at h
  subst h
  have hheap := submit_heap s.w s.ctx ret
  refine ⟨?_, rfl, ?_, by simp only [hheap]⟩
  · by_cases hne : s.ctx.submit_cbs = []
    · simp only [owned, submit_empty s.w s.ctx ret hne]
      exact List.Subperm.refl _
    · by_cases hr : ret < 0
      · simp only [owned, submit_fail s.w s.ctx ret hne hr, io_submit, logCall, hr, if_true]
        exact List.Subperm.refl _
      · simp only [owned, submit_ok s.w s.ctx ret hne hr, io_submit, logCall, hr, if_false,
          List.nil_append]
        apply (List.subperm_append_right _).mpr
        have h1 : List.Subperm (s.w.inflight ++ List.take ret.toNat s.ctx.submit_cbs)
            (s.w.inflight ++ s.ctx.submit_cbs) :=
          (List.subperm_append_left _).mpr (List.take_sublist _ _).subperm
        exact h1.trans List.perm_append_comm.subperm
  · by_cases hne : s.ctx.submit_cbs = []
    · simp only [submit_empty s.w s.ctx ret hne]
    · by_cases hr : ret < 0
      · simp only [submit_fail s.w s.ctx ret hne hr]
      · simp only [submit_ok s.w s.ctx ret hne hr]

theorem step_owned_poll (s s' : State) (read_ret errno ret : Int) (evs : List IoEvent)
    (henv : envOk (Op.poll read_ret errno ret evs) s)
    (h : step (Op.poll read_ret errno ret evs) s = some s') :
    List.Subperm (owned s') (owned s) ∧ s'.total = s.total ∧
      s'.ctx.max_events = s.ctx.max_events ∧ s'.w.heap.length = s.w.heap.length := by
  simp only [step] at h
  have hheap := read_events_heap s.w s.ctx read_ret errno ret evs
  by_cases hrr : read_ret < 0
  · simp only [hrr, true_or, if_true, Option.some.injEq] at h
    subst h
    refine ⟨?_, rfl, ?_, by simp only [hheap]⟩
    · simp only [owned, ffs_aio_read_events, hrr, if_true, logCall]
      exact List.Subperm.refl _
    · simp only [ffs_aio_read_events, hrr, if_true]
  · by_cases hr : ret < 0
    · simp only [hr, or_true, if_true, Option.some.injEq] at h
      subst h
      have hz : ret.toNat = 0 := by omega
      refine ⟨?_, rfl, ?_, by simp only [hheap]⟩
      · simp only [owned, ffs_aio_read_events, hrr, if_false, logCall, io_getevents, hz,
          List.take_zero, List.map_nil, List.diff_nil, List.nil_append, List.length_nil,
          List.drop_zero]
        exact List.Subperm.refl _
      · simp only [ffs_aio_read_events, hrr, if_false]
    · simp only [hrr, hr, or_self, if_false, Option.some.injEq] at h
      subst h
      obtain ⟨hlen, _, hsub⟩ := henv.2 (by omega) (by omega)
      have hn : ret.toNat = evs.length := by omega
      refine ⟨?_, rfl, ?_, by simp only [hheap]⟩
      · simp only [owned, ffs_aio_read_events, hrr, if_false, logCall, io_getevents, hn,
          List.take_length]
        rw [map_objAt_stored _ evs (List.drop evs.length s.ctx.events) rfl]
        have hperm : List.Perm (s.w.inflight.diff (evs.map IoEvent.obj) ++ evs.map IoEvent.obj)
            s.w.inflight :=
          List.perm_append_comm.trans
            (List.subperm_append_diff_self_of_count_le (fun x _ => hsub.count_le x))
        rw [List.append_assoc]
        have h1 : List.Subperm
            (s.ctx.submit_cbs ++ (s.w.inflight.diff (evs.map IoEvent.obj) ++ evs.map IoEvent.obj))
            (s.ctx.submit_cbs ++ s.w.inflight) :=
          (List.subperm_append_left _).mpr hperm.subperm
        exact h1.trans (List.sublist_append_left _ _).subperm
      · simp only [ffs_aio_read_events, hrr, if_false]

theorem step_owned_rearm (prep : Int → Option DataPtr → Nat → Int → Iocb)
    (s : State) (i : Nat) (r : World × Ctx) (hi : i ∈ s.avail)
    (h : ffs_aio_prep prep s.w s.ctx i = some r) :
    List.Perm (owned { s with w := r.1, ctx := r.2, avail := s.avail.erase i }) (owned s) ∧
      r.2.max_events = s.ctx.max_events ∧ r.1.heap.length = s.w.heap.length := by
  obtain ⟨ev, B0, hev, hB0⟩ := prep_defined prep s.w s.ctx i r h
  obtain ⟨w', hmod, heq⟩ := prep_eq prep s.w s.ctx i ev B0 hev hB0
  rw [heq] at h
  simp only [Option.some.injEq] at h
  subst h
  obtain ⟨arr, b, _, _, hw'⟩ := modBuf_eq s.w w' ev.obj _ hmod
  subst hw'
  refine ⟨?_, rfl, by simp⟩
  have hobj : objAt s.ctx i = ev.obj := by simp [objAt, hev]
  have hctx : objAt { s.ctx with submit_cbs := s.ctx.submit_cbs ++ [ev.obj] } = objAt s.ctx :=
    objAt_congr _ _ rfl
  simp only [owned, hctx]
  have hp : List.Perm (s.avail.map (objAt s.ctx))
      (ev.obj :: (s.avail.erase i).map (objAt s.ctx)) := by
    have := (List.perm_cons_erase hi).map (objAt s.ctx)
    simpa [hobj] using this
  have h1 : List.Perm (s.ctx.submit_cbs ++ s.w.inflight ++ s.avail.map (objAt s.ctx))
      (s.ctx.submit_cbs ++ s.w.inflight ++ (ev.obj :: (s.avail.erase i).map (objAt s.ctx))) :=
    List.Perm.append_left _ hp
  refine List.Perm.trans ?_ h1.symm
  simp only [List.append_assoc, List.singleton_append]
  apply List.Perm.append_left
  exact List.perm_middle.symm

/-! ## Invariants of disciplined runs -/

theorem step_rearm_read (s s' : State) (i : Nat) (h : step (Op.rearm_read i) s = some s') :
    ∃ r, ffs_aio_prep io_prep_pread s.w s.ctx i = some r ∧
      s' = { s with w := r.1, ctx := r.2, avail := s.avail.erase i } := by
  simp only [step, Option.map_eq_some', ffs_aio_prep_read] at h
  obtain ⟨r, hr, rfl⟩ := h
  exact ⟨r, hr, rfl⟩

theorem step_rearm_write (s s' : State) (i : Nat) (h : step (Op.rearm_write i) s = some s') :
    ∃ r, ffs_aio_prep io_prep_pwrite s.w s.ctx i = some r ∧
      s' = { s with w := r.1, ctx := r.2, avail := s.avail.erase i } := by
  simp only [step, Option.map_eq_some', ffs_aio_prep_write] at h
  obtain ⟨r, hr, rfl⟩ := h
  exact ⟨r, hr, rfl⟩

/-- In a run in which the caller re-arms a completion record at most once and
keeps the buffers of all endpoints within `max_events`, the descriptors the
engine is responsible for are at most as many as the buffers created, and
these at most `max_events`. -/
theorem capacity_invariant (s : State) (h : ReachableWith callerOk s) :
    (owned s).length ≤ s.total ∧ s.total ≤ s.ctx.max_events.toNat ∧ 0 < s.ctx.max_events := by
  induction h with
  | init w0 env ep_count max_events w ctx h0 hpos hinit =>
    obtain ⟨hw, hc⟩ := init_ok_eq w0 env ep_count max_events w ctx hinit
    subst hw hc
    simp [owned, h0, hpos]
  | step s s' op _ henv hP hstep ih =>
    obtain ⟨ih1, ih2, ih3⟩ := ih
    cases op with
    | init_ep ep_index fd bc bs bo iw bufs_ok data_ok =>
      obtain ⟨m, hm, hown, htot, hmax, _, _⟩ :=
        step_owned_init_ep s s' ep_index fd bc bs bo iw bufs_ok data_ok hstep
      have hcap : s.total + bc.toNat ≤ s.ctx.max_events.toNat := hP.2
      refine ⟨?_, ?_, ?_⟩
      · rw [hown, htot]
        simp only [owned, List.length_append, List.length_map, List.length_range] at ih1 ⊢
        omega
      · rw [htot, hmax]; exact hcap
      · rw [hmax]; exact ih3
    | submit ret =>
      obtain ⟨hsub, htot, hmax, _⟩ := step_owned_submit s s' ret hstep
      have := hsub.length_le
      exact ⟨by omega, by rw [htot, hmax]; exact ih2, by rw [hmax]; exact ih3⟩
    | poll read_ret errno ret evs =>
      obtain ⟨hsub, htot, hmax, _⟩ := step_owned_poll s s' read_ret errno ret evs henv hstep
      have := hsub.length_le
      exact ⟨by omega, by rw [htot, hmax]; exact ih2, by rw [hmax]; exact ih3⟩
    | rearm_read i =>
      obtain ⟨r, hr, rfl⟩ := step_rearm_read s s' i hstep
      obtain ⟨hperm, hmax, _⟩ := step_owned_rearm io_prep_pread s i r hP.1 hr
      have := hperm.length_eq
      exact ⟨by simp only [] at this ⊢; omega, by simp only [hmax]; exact ih2,
        by simp only [hmax]; exact ih3⟩
    | rearm_write i =>
      obtain ⟨r, hr, rfl⟩ := step_rearm_write s s' i hstep
      obtain ⟨hperm, hmax, _⟩ := step_owned_rearm io_prep_pwrite s i r hP.1 hr
      have := hperm.length_eq
      exact ⟨by simp only [] at this ⊢; omega, by simp only [hmax]; exact ih2,
        by simp only [hmax]; exact ih3⟩

theorem subperm_nodup {α : Type} (l1 l2 : List α) (h : List.Subperm l1 l2) (hn : l2.Nodup) :
    l1.Nodup := by
  obtain ⟨l, hp, hs⟩ := h
  exact hp.nodup_iff.mp (hs.nodup hn)

/-! ## Descriptors of a careful caller are distinct addresses -/

theorem mem_live (w : World) (a : Addr) :
    a ∈ w.live ↔ a < w.heap.length ∧ w.heap[a]? ≠ some Block.freed := by
  simp [World.live, List.mem_filter, List.mem_range]

theorem liveArr_mem_live (w : World) (p : IocbPtr) (h : liveArr w p) : p.block ∈ w.live := by
  obtain ⟨arr, harr⟩ := h
  rw [mem_live]
  constructor
  · by_contra hcon
    have : w.heap[p.block]? = none := List.getElem?_eq_none (Nat.le_of_not_lt hcon)
    rw [this] at harr
    exact Option.noConfusion harr
  · rw [harr]
    intro h2
    simp only [Option.some.injEq] at h2
    exact Block.noConfusion h2

theorem liveArr_lt (w : World) (p : IocbPtr) (h : liveArr w p) : p.block < w.heap.length :=
  ((mem_live w p.block).mp (liveArr_mem_live w p h)).1

theorem liveArr_congr (w w' : World) (h : w'.heap = w.heap) (p : IocbPtr)
    (hp : liveArr w p) : liveArr w' p := by
  obtain ⟨arr, harr⟩ := hp
  exact ⟨arr, by rw [h]; exact harr⟩

theorem liveArr_append (w w' : World) (tl : List Block) (h : w'.heap = w.heap ++ tl)
    (p : IocbPtr) (hp : liveArr w p) : liveArr w' p := by
  have hlt := liveArr_lt w p hp
  obtain ⟨arr, harr⟩ := hp
  exact ⟨arr, by rw [h, List.getElem?_append_left hlt]; exact harr⟩

theorem liveArr_modBuf (w w' : World) (q : IocbPtr) (f : EpBuf → EpBuf)
    (h : w.modBuf q f = some w') (p : IocbPtr) (hp : liveArr w p) : liveArr w' p := by
  obtain ⟨arr, b, harr, _, rfl⟩ := modBuf_eq w w' q f h
  have hlt := liveArr_lt w p hp
  obtain ⟨arr2, harr2⟩ := hp
  by_cases hb : q.block = p.block
  · refine ⟨arr.set q.idx (f b), ?_⟩
    simp only [List.getElem?_set, hb, hlt, if_true]
  · refine ⟨arr2, ?_⟩
    simp only [List.getElem?_set, hb, if_false]
    exact harr2

/-- What a call of `ffs_aio_init_ep` that does not fail after queuing a
descriptor does: the descriptors it queues are those of an array that is
allocated by the call, at a block that was not allocated before, and that it
leaves live; every block allocated before is as it was. -/
theorem init_ep_clean_shape (w : World) (ctx : Ctx) (ep_index : Nat)
    (fd bc bs bo iw : Int) (bufs_ok : Bool) (data_ok : Nat → Bool)
    (w' : World) (ctx' : Ctx) (r : Int)
    (hclean : bufs_ok = true → data_ok 0 = false ∨ ∀ j, j < bc.toNat → data_ok j = true)
    (h : ffs_aio_init_ep w ctx ep_index fd bc bs bo iw bufs_ok data_ok = some (w', ctx', r)) :
    ∃ m,
      ctx'.submit_cbs = ctx.submit_cbs ++
        (List.range m).map (fun t => (⟨w.heap.length, t⟩ : IocbPtr)) ∧
      ctx'.events = ctx.events ∧ w'.inflight = w.inflight ∧
      (∃ tl, w'.heap = w.heap ++ tl) ∧
      w.heap[w.heap.length]? = none ∧
      (0 < m → ∃ arr, w'.heap[w.heap.length]? = some (Block.bufs arr)) := by
  obtain ⟨ep, hep⟩ := init_ep_defined w ctx ep_index fd bc bs bo iw bufs_ok data_ok _ h
  have hnone : w.heap[w.heap.length]? = none := List.getElem?_eq_none (le_refl _)
  cases bufs_ok with
  | false =>
    rw [init_ep_nomem_eq w ctx ep_index ep fd bc bs bo iw data_ok hep] at h
    simp only [Option.some.injEq, Prod.mk.injEq] at h
    obtain ⟨hw, hc, _⟩ := h
    subst hw hc
    exact ⟨0, by simp, rfl, rfl, ⟨[], by simp⟩, hnone, fun h0 => absurd h0 (by omega)⟩
  | true =>
    rcases first_failure data_ok bc.toNat with hok | ⟨k, hk, hkf, hlt⟩
    · rw [init_ep_ok_eq w ctx ep_index ep fd bc bs bo iw data_ok hep hok] at h
      simp only [Option.some.injEq, Prod.mk.injEq] at h
      obtain ⟨hw, hc, _⟩ := h
      subst hw hc
      exact ⟨bc.toNat, rfl, rfl, rfl, ⟨_, rfl⟩, hnone, fun _ => ⟨_, heap_get_mid _ _ _⟩⟩
    · have hk0 : k = 0 := by
        rcases hclean rfl with h0 | hall
        · by_contra hne
          have := hlt 0 (Nat.pos_of_ne_zero hne)
          rw [h0] at this
          exact Bool.noConfusion this
        · have := hall k hk
          rw [hkf] at this
          exact Bool.noConfusion this
      subst hk0
      rw [init_ep_fail_eq w ctx ep_index ep fd bc bs bo iw data_ok 0 hep hk hkf hlt] at h
      simp only [Option.some.injEq, Prod.mk.injEq] at h
      obtain ⟨hw, hc, _⟩ := h
      subst hw hc
      exact ⟨0, by simp, rfl, rfl, ⟨_, rfl⟩, hnone, fun h0 => absurd h0 (by omega)⟩

/-- In a run in which the caller re-arms a completion record at most once and no
`ffs_aio_init_ep` call fails after queuing a descriptor, no descriptor is at
the same time twice among those pending, held by the kernel or completed and
not re-armed, and each of them points into a live `ep_buf` array. -/
theorem careful_invariant (s : State) (h : ReachableWith carefulCaller s) :
    (owned s).Nodup ∧ ∀ p, p ∈ owned s → liveArr s.w p := by
  induction h with
  | init w0 env ep_count max_events w ctx h0 hpos hinit =>
    obtain ⟨hw, hc⟩ := init_ok_eq w0 env ep_count max_events w ctx hinit
    subst hw hc
    simp [owned, h0]
  | step s s' op _ henv hP hstep ih =>
    obtain ⟨ih1, ih2⟩ := ih
    cases op with
    | init_ep ep_index fd bc bs bo iw bufs_ok data_ok =>
      simp only [step, Option.map_eq_some'] at hstep
      obtain ⟨⟨w', ctx', r⟩, hr, rfl⟩ := hstep
      obtain ⟨m, hsub, hev, hin, ⟨tl, htl⟩, hnone, hnew⟩ :=
        init_ep_clean_shape s.w s.ctx ep_index fd bc bs bo iw bufs_ok data_ok w' ctx' r hP.2 hr
      have hperm : List.Perm
          (owned { s with w := w', ctx := ctx', total := s.total + bc.toNat })
          ((List.range m).map (fun t => (⟨s.w.heap.length, t⟩ : IocbPtr)) ++ owned s) := by
        simp only [owned, hsub, hin, objAt_congr s.ctx ctx' hev, List.append_assoc]
        exact List.perm_append_comm_assoc _ _ _
      have hnodup : ((List.range m).map (fun t => (⟨s.w.heap.length, t⟩ : IocbPtr))).Nodup := by
        apply List.Nodup.map _ (List.nodup_range m)
        intro a b hab
        simp only [IocbPtr.mk.injEq, true_and] at hab
        exact hab
      have hmem : ∀ p, p ∈ (List.range m).map (fun t => (⟨s.w.heap.length, t⟩ : IocbPtr)) →
          p.block = s.w.heap.length ∧ 0 < m := by
        intro p hp
        obtain ⟨t, ht, rfl⟩ := List.mem_map.mp hp
        exact ⟨rfl, by have := List.mem_range.mp ht; omega⟩
      constructor
      · rw [hperm.nodup_iff, List.nodup_append]
        refine ⟨hnodup, ih1, ?_⟩
        intro p hp1 hp2
        -- a descriptor already owned lies in a block that was allocated before the call
        obtain ⟨arr, harr⟩ := ih2 p hp2
        rw [(hmem p hp1).1, hnone] at harr
        exact Option.noConfusion harr
      · intro p hp
        rcases List.mem_append.mp (hperm.subset hp) with h1 | h1
        · obtain ⟨hb, hm0⟩ := hmem p h1
          obtain ⟨arr, harr⟩ := hnew hm0
          exact ⟨arr, by rw [hb]; exact harr⟩
        · exact liveArr_append s.w w' tl htl p (ih2 p h1)
    | submit ret =>
      obtain ⟨hsub, _, _, _⟩ := step_owned_submit s s' ret hstep
      simp only [step, Option.some.injEq] at hstep
      subst hstep
      exact ⟨subperm_nodup _ _ hsub ih1, fun p hp =>
        liveArr_congr s.w _ (submit_heap s.w s.ctx ret) p (ih2 p (hsub.subset hp))⟩
    | poll read_ret errno ret evs =>
      obtain ⟨hsub, _, _, _⟩ := step_owned_poll s s' read_ret errno ret evs henv hstep
      have hheap : s'.w.heap = s.w.heap := by
        simp only [step] at hstep
        split at hstep <;>
          (simp only [Option.some.injEq] at hstep
           subst hstep
           exact read_events_heap s.w s.ctx read_ret errno ret evs)
      exact ⟨subperm_nodup _ _ hsub ih1, fun p hp =>
        liveArr_congr s.w _ hheap p (ih2 p (hsub.subset hp))⟩
    | rearm_read i =>
      obtain ⟨r, hr, rfl⟩ := step_rearm_read s s' i hstep
      obtain ⟨hperm, _, _⟩ := step_owned_rearm io_prep_pread s i r hP.1 hr
      obtain ⟨ev, B0, hev, hB0⟩ := prep_defined io_prep_pread s.w s.ctx i r hr
      obtain ⟨w', hmod, heq⟩ := prep_eq io_prep_pread s.w s.ctx i ev B0 hev hB0
      rw [heq] at hr
      simp only [Option.some.injEq] at hr
      subst hr
      exact ⟨hperm.nodup_iff.mpr ih1, fun p hp =>
        liveArr_modBuf s.w w' ev.obj _ hmod p (ih2 p (hperm.subset hp))⟩
    | rearm_write i =>
      obtain ⟨r, hr, rfl⟩ := step_rearm_write s s' i hstep
      obtain ⟨hperm, _, _⟩ := step_owned_rearm io_prep_pwrite s i r hP.1 hr
      obtain ⟨ev, B0, hev, hB0⟩ := prep_defined io_prep_pwrite s.w s.ctx i r hr
      obtain ⟨w', hmod, heq⟩ := prep_eq io_prep_pwrite s.w s.ctx i ev B0 hev hB0
      rw [heq] at hr
      simp only [Option.some.injEq] at hr
      subst hr
      exact ⟨hperm.nodup_iff.mpr ih1, fun p hp =>
        liveArr_modBuf s.w w' ev.obj _ hmod p (ih2 p (hperm.subset hp))⟩

/-! ## Concrete runs -/

theorem initState_reachable (P : Op → State → Prop) (ep_count max_events : Int)
    (h : 0 < max_events) : ReachableWith P (initState ep_count max_events) := by
  have heq : ffs_aio_init World.empty envOk0 ep_count max_events =
      ((initState ep_count max_events).w, Except.ok (initState ep_count max_events).ctx) := by
    simp [initState, ffs_aio_init, malloc, envOk0, io_setup, eventfd, logCall, World.empty]
  have hst : initState ep_count max_events =
      { w := (initState ep_count max_events).w, ctx := (initState ep_count max_events).ctx,
        last := 0, avail := [], total := 0 } := by
    simp [initState, ffs_aio_init, malloc, envOk0, io_setup, eventfd, logCall, World.empty]
  rw [hst]
  exact ReachableWith.init World.empty envOk0 ep_count max_events _ _ rfl h heq

theorem overState_reachable : Reachable overState := by
  have h0 : Reachable (initState 2 4) := initState_reachable _ 2 4 (by decide)
  have h1 : Reachable (after [Op.init_ep 0 7 4 4096 0 0 true allOk] (initState 2 4)) :=
    ReachableWith.step _ _ (Op.init_ep 0 7 4 4096 0 0 true allOk) h0 trivial trivial (by decide)
  exact ReachableWith.step _ _ (Op.init_ep 1 8 1 4096 0 0 true allOk) h1 trivial trivial
    (by decide)

theorem twiceState_reachable : Reachable twiceState := by
  have h0 : Reachable (initState 1 4) := initState_reachable _ 1 4 (by decide)
  have h1 : Reachable (after [Op.init_ep 0 7 1 4096 0 0 true allOk] (initState 1 4)) :=
    ReachableWith.step _ _ (Op.init_ep 0 7 1 4096 0 0 true allOk) h0 trivial trivial (by decide)
  have h2 : Reachable (after [Op.init_ep 0 7 1 4096 0 0 true allOk, Op.submit 1]
      (initState 1 4)) :=
    ReachableWith.step _ _ (Op.submit 1) h1 (by simp only [envOk]; decide) trivial (by decide)
  have h3 : Reachable (after [Op.init_ep 0 7 1 4096 0 0 true allOk, Op.submit 1,
      Op.poll 8 0 1 [completion ⟨4, 0⟩ 512]] (initState 1 4)) :=
    ReachableWith.step _ _ (Op.poll 8 0 1 [completion ⟨4, 0⟩ 512]) h2
      (by simp only [envOk]; decide) trivial (by decide)
  have h4 : Reachable (after [Op.init_ep 0 7 1 4096 0 0 true allOk, Op.submit 1,
      Op.poll 8 0 1 [completion ⟨4, 0⟩ 512], Op.rearm_read 0] (initState 1 4)) :=
    ReachableWith.step _ _ (Op.rearm_read 0) h3 (by simp only [envOk]; decide) trivial
      (by decide)
  exact ReachableWith.step _ _ (Op.rearm_read 0) h4 (by simp only [envOk]; decide) trivial
    (by decide)

theorem cycleState_disciplined : ReachableWith callerOk cycleState := by
  have h0 : ReachableWith callerOk (initState 1 4) := initState_reachable _ 1 4 (by decide)
  have h1 : ReachableWith callerOk
      (after [Op.init_ep 0 7 4 4096 0 0 true allOk] (initState 1 4)) :=
    ReachableWith.step _ _ (Op.init_ep 0 7 4 4096 0 0 true allOk) h0 trivial
      (by simp only [callerOk, rearmOnce, withinCapacity]; decide) (by decide)
  have h2 : ReachableWith callerOk
      (after [Op.init_ep 0 7 4 4096 0 0 true allOk, Op.submit 4] (initState 1 4)) :=
    ReachableWith.step _ _ (Op.submit 4) h1 (by simp only [envOk]; decide)
      (by simp only [callerOk, rearmOnce, withinCapacity]; decide) (by decide)
  have h3 : ReachableWith callerOk
      (after [Op.init_ep 0 7 4 4096 0 0 true allOk, Op.submit 4,
        Op.poll 8 0 2 [completion ⟨4, 1⟩ 512, completion ⟨4, 3⟩ 64]] (initState 1 4)) :=
    ReachableWith.step _ _ (Op.poll 8 0 2 [completion ⟨4, 1⟩ 512, completion ⟨4, 3⟩ 64]) h2
      (by simp only [envOk]; decide)
      (by simp only [callerOk, rearmOnce, withinCapacity]; decide) (by decide)
  have h4 : ReachableWith callerOk
      (after [Op.init_ep 0 7 4 4096 0 0 true allOk, Op.submit 4,
        Op.poll 8 0 2 [completion ⟨4, 1⟩ 512, completion ⟨4, 3⟩ 64], Op.rearm_read 0]
        (initState 1 4)) :=
    ReachableWith.step _ _ (Op.rearm_read 0) h3 (by simp only [envOk]; decide)
      (by simp only [callerOk, rearmOnce, withinCapacity]; decide) (by decide)
  exact ReachableWith.step _ _ (Op.rearm_write 1) h4 (by simp only [envOk]; decide)
    (by simp only [callerOk, rearmOnce, withinCapacity]; decide) (by decide)

theorem secondRound_careful : ReachableWith carefulCaller secondRound := by
  have hall : ∀ j, j < (2 : Int).toNat → allOk j = true := fun _ _ => rfl
  have h0 : ReachableWith carefulCaller (initState 1 2) := initState_reachable _ 1 2 (by decide)
  have h1 : ReachableWith carefulCaller
      (after [Op.init_ep 0 7 2 4096 0 0 true allOk] (initState 1 2)) :=
    ReachableWith.step _ _ (Op.init_ep 0 7 2 4096 0 0 true allOk) h0 trivial
      ⟨trivial, fun _ => Or.inr hall⟩ (by decide)
  have h2 : ReachableWith carefulCaller
      (after [Op.init_ep 0 7 2 4096 0 0 true allOk, Op.submit 2] (initState 1 2)) :=
    ReachableWith.step _ _ (Op.submit 2) h1 (by simp only [envOk]; decide)
      ⟨trivial, trivial⟩ (by decide)
  have h3 : ReachableWith carefulCaller
      (after [Op.init_ep 0 7 2 4096 0 0 true allOk, Op.submit 2,
        Op.poll 8 0 2 [completion ⟨4, 1⟩ 512, completion ⟨4, 0⟩ 512]] (initState 1 2)) :=
    ReachableWith.step _ _ (Op.poll 8 0 2 [completion ⟨4, 1⟩ 512, completion ⟨4, 0⟩ 512]) h2
      (by simp only [envOk]; decide) ⟨trivial, trivial⟩ (by decide)
  have h4 : ReachableWith carefulCaller
      (after [Op.init_ep 0 7 2 4096 0 0 true allOk, Op.submit 2,
        Op.poll 8 0 2 [completion ⟨4, 1⟩ 512, completion ⟨4, 0⟩ 512], Op.rearm_read 1]
        (initState 1 2)) :=
    ReachableWith.step _ _ (Op.rearm_read 1) h3 (by simp only [envOk]; decide)
      ⟨by simp only [rearmOnce]; decide, trivial⟩ (by decide)
  exact ReachableWith.step _ _ (Op.rearm_read 0) h4 (by simp only [envOk]; decide)
    ⟨by simp only [rearmOnce]; decide, trivial⟩ (by decide)

theorem staleState_rearmed_once : ReachableWith rearmOnce staleState := by
  have h0 : ReachableWith rearmOnce (initState 1 4) := initState_reachable _ 1 4 (by decide)
  have h1 : ReachableWith rearmOnce
      (after [Op.init_ep 0 7 2 4096 0 0 true (failAt 1)] (initState 1 4)) :=
    ReachableWith.step _ _ (Op.init_ep 0 7 2 4096 0 0 true (failAt 1)) h0 trivial trivial
      (by decide)
  exact ReachableWith.step _ _ (Op.init_ep 0 7 2 4096 0 0 true allOk) h1 trivial trivial
    (by decide)

/-! ## Capacity and duplicates of the pending list -/

/-- C5 (as stated, refuted): the state reached from `ffs_aio_init(2, 4)` by
initialising one endpoint with four buffers and a second with one buffer has
five pending descriptors, one more than `max_events`: the fifth was stored
past the end of `submit_cbs`. -/
theorem pending_list_exceeds_max_events :
    Reachable overState ∧ overState.ctx.max_events = 4 ∧
      overState.ctx.submit_cbs_count = 5 ∧
      ¬ overState.ctx.submit_cbs_count ≤ overState.ctx.max_events :=
  ⟨overState_reachable, by decide, by decide, by decide⟩

/-- C5 (amended): in every state reached from `ffs_aio_init` by calls in which
the `buf_count` of all `ffs_aio_init_ep` calls add up to at most `max_events`
and every completion record of a poll is re-armed at most once, the pending
list is at most `max_events` long. -/
theorem pending_within_max_events (s : State) (h : ReachableWith callerOk s) :
    s.ctx.submit_cbs_count ≤ s.ctx.max_events := by
  obtain ⟨h1, h2, h3⟩ := capacity_invariant s h
  simp only [owned, List.length_append] at h1
  unfold Ctx.submit_cbs_count
  omega

/-- Instance of the amended C5: four buffers, two completed and re-armed. -/
theorem pending_within_max_events_witness :
    ReachableWith callerOk cycleState ∧ cycleState.ctx.submit_cbs_count = 2 ∧
      cycleState.ctx.submit_cbs_count ≤ cycleState.ctx.max_events :=
  ⟨cycleState_disciplined, by decide,
    pending_within_max_events cycleState cycleState_disciplined⟩

/-- C6 (as stated, refuted): after one buffer was submitted and completed, two
`ffs_aio_prep_read` calls on event index 0 leave its descriptor twice in the
pending list, and the next submit hands the kernel that descriptor twice. -/
theorem rearm_twice_duplicates :
    Reachable twiceState ∧ twiceState.ctx.submit_cbs = [⟨4, 0⟩, ⟨4, 0⟩] ∧
      ¬ twiceState.ctx.submit_cbs.Nodup ∧
      (ffs_aio_submit twiceState.w twiceState.ctx 2).1.inflight = [⟨4, 0⟩, ⟨4, 0⟩] :=
  ⟨twiceState_reachable, by decide, by decide, by decide⟩

/-- Why a failed `ffs_aio_init_ep` must not leave descriptors behind: after a
call that failed at its second data region and a retry that succeeded, with no
completion record re-armed at all, the pending list holds the descriptor of
buffer 0 of the freed array (block 4) and the two descriptors of the new array
(block 6).  The allocator may give the new array the address of the freed one,
and under that placement the first two entries are the same address. -/
theorem stale_descriptor_may_alias :
    ReachableWith rearmOnce staleState ∧
      staleState.ctx.submit_cbs = [⟨4, 0⟩, ⟨6, 0⟩, ⟨6, 1⟩] ∧
      staleState.w.heap[4]? = some Block.freed ∧
      validPlacement staleState.w reusePlacement ∧
      ¬ (staleState.ctx.submit_cbs.map (machinePtr reusePlacement)).Nodup :=
  ⟨staleState_rearmed_once, by decide, by decide, by unfold validPlacement; decide,
    by decide⟩

/-- C6 (amended): in every state reached from `ffs_aio_init` by calls in which
every completion record of a poll is re-armed at most once and no
`ffs_aio_init_ep` call fails after queuing a descriptor, no descriptor occurs
twice in the pending list, none that is pending is held by the kernel, and each
of them points into a live `ep_buf` array; so under every placement of the
blocks in memory, in which live blocks have different addresses, the pending
and in-flight descriptors are different addresses, and no submit hands the
kernel the same buffer twice or one it still holds. -/
theorem pending_without_duplicates (s : State) (h : ReachableWith carefulCaller s) :
    s.ctx.submit_cbs.Nodup ∧ (s.ctx.submit_cbs ++ s.w.inflight).Nodup ∧
    (∀ p, p ∈ s.ctx.submit_cbs ++ s.w.inflight → liveArr s.w p) ∧
    ∀ f : Addr → Nat, validPlacement s.w f →
      ((s.ctx.submit_cbs ++ s.w.inflight).map (machinePtr f)).Nodup := by
  obtain ⟨hn, hl⟩ := careful_invariant s h
  simp only [owned] at hn
  have h2 : (s.ctx.submit_cbs ++ s.w.inflight).Nodup := (List.nodup_append.mp hn).1
  have h3 : ∀ p, p ∈ s.ctx.submit_cbs ++ s.w.inflight → liveArr s.w p := by
    intro p hp
    apply hl p
    simp only [owned]
    exact List.mem_append_left _ hp
  refine ⟨(List.nodup_append.mp h2).1, h2, h3, ?_⟩
  intro f hf
  apply List.Nodup.map_on _ h2
  intro x hx y hy hxy
  simp only [machinePtr, Prod.mk.injEq] at hxy
  have hb : x.block = y.block :=
    List.inj_on_of_nodup_map hf (liveArr_mem_live s.w x (h3 x hx))
      (liveArr_mem_live s.w y (h3 y hy)) hxy.1
  cases x
  cases y
  simp only [IocbPtr.mk.injEq]
  exact ⟨hb, hxy.2⟩

/-- Instance of the amended C6: two buffers completed and re-armed once each. -/
theorem pending_without_duplicates_witness :
    ReachableWith carefulCaller secondRound ∧
      secondRound.ctx.submit_cbs = [⟨4, 0⟩, ⟨4, 1⟩] ∧
      secondRound.ctx.submit_cbs.Nodup ∧
      validPlacement secondRound.w (fun a => a) ∧
      ((secondRound.ctx.submit_cbs ++ secondRound.w.inflight).map
        (machinePtr (fun a => a))).Nodup :=
  ⟨secondRound_careful, by decide,
    (pending_without_duplicates secondRound secondRound_careful).1,
    by unfold validPlacement; decide,
    (pending_without_duplicates secondRound secondRound_careful).2.2.2 (fun a => a)
      (by unfold validPlacement; decide)⟩

end UsbFfs
